import Mathlib

/-!
Verification of the Bundestag seat-allocation model
(src/btw_allocation_model.py) against its specification.

The pipeline is embedded shallowly: pandas one-column frames become
association lists `List (ℕ × ℚ)` (keys are party or region identifiers),
two-dimensional seat tables become `Tabelle` values (rows keyed by party,
columns listed explicitly, cell values `ℚ`), and each `while` loop over a
shrinking or growing divisor becomes a fuel-indexed recursion returning
`Option`: `none` means the loop did not exit within the given fuel.
Floating-point arithmetic of the source is modelled by exact rationals.
-/

/-- Round a rational to the nearest integer, breaking exact halves toward
the even integer.  This is the rounding applied by `round` on a pandas
frame (numpy banker rounding), used by every divisor search in the model. -/
def roundHalfEven (q : ℚ) : ℤ :=
  if q - ⌊q⌋ < 1/2 then ⌊q⌋
  else if 1/2 < q - ⌊q⌋ then ⌊q⌋ + 1
  else if ⌊q⌋ % 2 = 0 then ⌊q⌋ else ⌊q⌋ + 1

/-!
The generic divisor allocator `sainte_lague` of the source, acting on a
one-column frame.  Keys ride along unchanged; `round(values/divisor)` is
`allocate`; each `while` loop is a fueled recursion.
-/

/-- One trial rounding of the whole column at a given divisor, the
`round(values/divisor)` expression of the source. -/
def allocate (values : List (ℕ × ℚ)) (d : ℚ) : List (ℕ × ℤ) :=
  values.map fun kv => (kv.1, roundHalfEven (kv.2 / d))

/-- Sum of an integer allocation column, the `allocations.sum()` expression. -/
def allocSum (a : List (ℕ × ℤ)) : ℤ := (a.map Prod.snd).sum

/-- Sum of a rational weight column, the `values.sum()` expression. -/
def valsSum (values : List (ℕ × ℚ)) : ℚ := (values.map Prod.snd).sum

/-- Value of a keyed integer column at a key, zero when the key is absent. -/
def lookupZ (l : List (ℕ × ℤ)) (k : ℕ) : ℤ :=
  ((l.find? fun e => e.1 == k).map Prod.snd).getD 0

/-- Value of a keyed rational column at a key, zero when the key is absent. -/
def lookupQ (l : List (ℕ × ℚ)) (k : ℕ) : ℚ :=
  ((l.find? fun e => e.1 == k).map Prod.snd).getD 0

/-- Sum of a keyed rational column. -/
def qSum (l : List (ℕ × ℚ)) : ℚ := (l.map Prod.snd).sum

/-- The shrinking loop of `sainte_lague`: multiply the divisor by 0.999 and
re-round while the rounded sum stays below the target. -/
def slDown (values : List (ℕ × ℚ)) (target : ℚ) : ℚ → ℕ → Option (List (ℕ × ℤ))
  | _, 0 => none
  | d, fuel+1 =>
    let d' := d * (999/1000)
    let a := allocate values d'
    if (allocSum a : ℚ) < target then slDown values target d' fuel else some a

/-- The growing loop of `sainte_lague`: multiply the divisor by 1.001 and
re-round while the rounded sum stays above the target. -/
def slUp (values : List (ℕ × ℚ)) (target : ℚ) : ℚ → ℕ → Option (List (ℕ × ℤ))
  | _, 0 => none
  | d, fuel+1 =>
    let d' := d * (1001/1000)
    let a := allocate values d'
    if target < (allocSum a : ℚ) then slUp values target d' fuel else some a

/-- The `sainte_lague` function of the source: initial divisor
`values.sum()/target`, then return the initial rounding if its sum already
equals the target, otherwise run the shrinking or the growing loop. -/
def sainte_lague (values : List (ℕ × ℚ)) (target : ℚ) (fuel : ℕ) :
    Option (List (ℕ × ℤ)) :=
  let divisor := valsSum values / target
  let a := allocate values divisor
  if (allocSum a : ℚ) = target then some a
  else if (allocSum a : ℚ) < target then slDown values target divisor fuel
  else slUp values target divisor fuel


/-!
Tabular data model.  A `Wahltabelle` is a constituency-indexed frame whose
first column is the Bundesland and whose remaining columns are per-party
vote counts; a `Tabelle` is a party-indexed seat table with an explicit
Bundesland column list.  Cell values are rationals, as every pandas table
in the source holds floats after `pivot`/`fillna`.
-/

/-- One constituency row: its Bundesland and its per-party vote column. -/
structure Wahlkreiszeile where
  bundesland : ℕ
  stimmen : ℕ → ℚ

/-- A constituency-level vote table: the ordered party columns and the rows. -/
structure Wahltabelle where
  parteien : List ℕ
  zeilen : List Wahlkreiszeile

/-- A party-by-Bundesland seat table. -/
structure Tabelle where
  spalten : List ℕ
  zeilen : List (ℕ × (ℕ → ℚ))

/-- Distinct elements of a list, keeping the first occurrence of each. -/
def dedupFirst : List ℕ → List ℕ
  | [] => []
  | x :: xs => x :: (dedupFirst xs).filter (fun y => y ≠ x)

/-- Cell of a seat table at a party row and Bundesland column; a party with
no row reads as zero, as a missing entry does after `fillna(0)`. -/
def tableLookup (t : Tabelle) (p b : ℕ) : ℚ :=
  match t.zeilen.find? (fun r => r.1 == p) with
  | none => 0
  | some r => r.2 b

/-- Row sum of a seat table over its columns, the `sum(axis=1)` expression. -/
def rowSum (t : Tabelle) (p : ℕ) : ℚ :=
  (t.spalten.map fun b => tableLookup t p b).sum

/-- Sum of all cells of a seat table, the `.sum().sum()`-style grand total. -/
def tabelleTotal (t : Tabelle) : ℚ :=
  (t.zeilen.map fun r => (t.spalten.map r.2).sum).sum

/-- The `idxmax(axis=1)` of one row over the given column order: the first
column attaining the maximum (later columns replace the running best only
on a strictly larger value). -/
def idxmax (cols : List ℕ) (f : ℕ → ℚ) : ℕ :=
  match cols with
  | [] => 0
  | c :: cs => cs.foldl (fun best x => if f best < f x then x else best) c

/-- The per-row winners of `get_wahlkreissitze_pro_partei_pro_bundesland`:
each constituency row paired with the party winning it by plurality. -/
def sieger (t : Wahltabelle) : List (ℕ × ℕ) :=
  t.zeilen.map fun z => (z.bundesland, idxmax t.parteien z.stimmen)

/-- Direct-mandate counts per party per Bundesland: group the winner list
by Bundesland and winner, count group sizes, pivot to a party-indexed
table filling absent combinations with zero. -/
def get_wahlkreissitze_pro_partei_pro_bundesland (t : Wahltabelle) : Tabelle :=
  let s := sieger t
  { spalten := dedupFirst (s.map Prod.fst)
    zeilen := (dedupFirst (s.map Prod.snd)).map fun p =>
      (p, fun b => ((s.filter fun e => e.1 == b && e.2 == p).length : ℚ)) }

/-- Initial seats per Bundesland: Sainte-Lague on the population column. -/
def get_sitze_pro_bundesland (bevoelkerung : List (ℕ × ℚ))
    (anzahl_sitze_parlament : ℚ) (fuel : ℕ) : Option (List (ℕ × ℤ)) :=
  sainte_lague bevoelkerung anzahl_sitze_parlament fuel

/-- National vote count of one party: its column summed over all rows. -/
def nationalStimmen (t : Wahltabelle) (p : ℕ) : ℚ :=
  (t.zeilen.map fun z => z.stimmen p).sum

/-- Vote count of one party within one Bundesland: its column summed over
the rows of that Bundesland, the `groupby('Bundesland').sum()` cell. -/
def regionalStimmen (t : Wahltabelle) (p b : ℕ) : ℚ :=
  ((t.zeilen.filter fun z => z.bundesland == b).map fun z => z.stimmen p).sum

/-- The Bundesland index of `groupby('Bundesland')` applied to a vote table. -/
def blaenderOf (t : Wahltabelle) : List ℕ :=
  dedupFirst (t.zeilen.map fun z => z.bundesland)

/-- Qualified parties: those with at least five percent of all second votes
nationally, united with those winning at least three constituencies. -/
def get_qualifizierte_parteien (erst zweit : Wahltabelle) : List ℕ :=
  let total := (zweit.parteien.map fun p => nationalStimmen zweit p).sum
  let l1 := zweit.parteien.filter fun p =>
    decide ((1/20 : ℚ) ≤ nationalStimmen zweit p / total)
  let wk := get_wahlkreissitze_pro_partei_pro_bundesland erst
  let l2 := (wk.zeilen.map Prod.fst).filter fun p => decide ((3:ℚ) ≤ rowSum wk p)
  dedupFirst (l1 ++ l2)

/-- Maximum of a list of cell values; the empty case never arises when the
list collects the rows of a group. -/
def qmaxList : List ℚ → ℚ
  | [] => 0
  | x :: xs => xs.foldl max x

/-- The `pd.concat([...]).max(level=0)` of the source: stack the rows of
both tables, group them by party, and take the columnwise maximum of each
group. -/
def get_mindestsitzzahlen_pro_partei_pro_bundesland (w l : Tabelle) : Tabelle :=
  let rows := w.zeilen ++ l.zeilen
  { spalten := dedupFirst (w.spalten ++ l.spalten)
    zeilen := (dedupFirst (rows.map Prod.fst)).map fun p =>
      (p, fun b => qmaxList (((rows.filter fun r => r.1 == p).map Prod.snd).map
        fun f => f b)) }

/-- The floor test of the national solver: every allocated row is at least
the floor of its party, the `(allocations >= mindest).all()` expression. -/
def gzOk (a : List (ℕ × ℤ)) (floors : ℕ → ℚ) : Prop :=
  ∀ kv ∈ a, floors kv.1 ≤ (kv.2 : ℚ)

instance (a : List (ℕ × ℤ)) (floors : ℕ → ℚ) : Decidable (gzOk a floors) :=
  List.decidableBAll _ a

/-- The shrinking loop of the national solver: multiply the divisor by
0.9999 and re-round until every party reaches its floor. -/
def gzLoop (votes : List (ℕ × ℚ)) (floors : ℕ → ℚ) : ℚ → ℕ → Option (List (ℕ × ℤ))
  | _, 0 => none
  | d, fuel+1 =>
    let d' := d * (9999/10000)
    let a := allocate votes d'
    if gzOk a floors then some a else gzLoop votes floors d' fuel

/-- The `get_gesamtzahl_bundestagssitze_pro_partei` function: start from
divisor = total qualified second votes / total minimum seats, round each
qualified party, and shrink the divisor by 0.9999 until every party is at
or above its national floor. -/
def get_gesamtzahl_bundestagssitze_pro_partei (mindest : Tabelle)
    (zweit : Wahltabelle) (qual : List ℕ) (fuel : ℕ) : Option (List (ℕ × ℤ)) :=
  let floors : ℕ → ℚ := fun p => rowSum mindest p
  let votes : List (ℕ × ℚ) := qual.map fun p => (p, nationalStimmen zweit p)
  let divisor := valsSum votes / tabelleTotal mindest
  let a := allocate votes divisor
  if gzOk a floors then some a else gzLoop votes floors divisor fuel

/-- Clamp a trial allocation from below by the per-key minima, the
`pd.concat([allocations, minima]).max(level=0)` expression of
`sainte_lague_final`. -/
def interimOf (a : List (ℕ × ℤ)) (minima : ℕ → ℚ) : List (ℕ × ℚ) :=
  a.map fun kv => (kv.1, max (kv.2 : ℚ) (minima kv.1))

/-- The shrinking loop of `sainte_lague_final`: re-round, clamp by the
minima, and shrink the divisor while the clamped sum stays below target. -/
def slfDown (values : List (ℕ × ℚ)) (minima : ℕ → ℚ) (target : ℚ) :
    ℚ → ℕ → Option (List (ℕ × ℚ))
  | _, 0 => none
  | d, fuel+1 =>
    let d' := d * (999/1000)
    let interim := interimOf (allocate values d') minima
    if qSum interim < target then slfDown values minima target d' fuel
    else some interim

/-- The growing loop of `sainte_lague_final`: re-round, clamp by the
minima, and grow the divisor while the clamped sum stays above target. -/
def slfUp (values : List (ℕ × ℚ)) (minima : ℕ → ℚ) (target : ℚ) :
    ℚ → ℕ → Option (List (ℕ × ℚ))
  | _, 0 => none
  | d, fuel+1 =>
    let d' := d * (1001/1000)
    let interim := interimOf (allocate values d') minima
    if target < qSum interim then slfUp values minima target d' fuel
    else some interim

/-- The `sainte_lague_final` function: like `sainte_lague` but each trial
rounding is clamped from below by the minima before its sum is compared
with the target. -/
def sainte_lague_final (values : List (ℕ × ℚ)) (minima : ℕ → ℚ) (target : ℚ)
    (fuel : ℕ) : Option (List (ℕ × ℚ)) :=
  let divisor := valsSum values / target
  let interim := interimOf (allocate values divisor) minima
  if qSum interim = target then some interim
  else if qSum interim < target then slfDown values minima target divisor fuel
  else slfUp values minima target divisor fuel

/-- Row of a party-keyed list of integer columns, empty when absent. -/
def lookupRowZ (t : List (ℕ × List (ℕ × ℤ))) (k : ℕ) : List (ℕ × ℤ) :=
  ((t.find? fun e => e.1 == k).map Prod.snd).getD []

/-- Row of a party-keyed list of rational columns, empty when absent. -/
def lookupRowQ (t : List (ℕ × List (ℕ × ℚ))) (k : ℕ) : List (ℕ × ℚ) :=
  ((t.find? fun e => e.1 == k).map Prod.snd).getD []

/-- The per-Bundesland loop of `get_listensitze_pro_partei_pro_bundesland`:
one Sainte-Lague call per Bundesland over the qualified parties, with that
Bundesland seat count as target. -/
def listensitzeJeBundesland (zweit : Wahltabelle) (qual : List ℕ) (fuel : ℕ) :
    List (ℕ × ℤ) → Option (List (ℕ × List (ℕ × ℤ)))
  | [] => some []
  | bs :: rest =>
    match sainte_lague (qual.map fun p => (p, regionalStimmen zweit p bs.1))
        (bs.2 : ℚ) fuel, listensitzeJeBundesland zweit qual fuel rest with
    | some a, some r => some ((bs.1, a) :: r)
    | _, _ => none

/-- List seats per qualified party per Bundesland, combining the
per-Bundesland allocations into one party-indexed table. -/
def get_listensitze_pro_partei_pro_bundesland (sitze : List (ℕ × ℤ))
    (zweit : Wahltabelle) (qual : List ℕ) (fuel : ℕ) : Option Tabelle :=
  match listensitzeJeBundesland zweit qual fuel sitze with
  | none => none
  | some cols => some
    { spalten := sitze.map Prod.fst
      zeilen := qual.map fun p =>
        (p, fun b => (lookupZ (lookupRowZ cols b) p : ℚ)) }

/-- The per-party loop of `get_sitze_pro_bundesland_pro_partei_final`: one
constrained Sainte-Lague call per qualified party, distributing its
national total across the Bundeslaender with its direct mandates as
per-Bundesland minima. -/
def combineFinal (zweit : Wahltabelle) (wk : Tabelle) (gesamt : List (ℕ × ℤ))
    (fuel : ℕ) : List ℕ → Option (List (ℕ × List (ℕ × ℚ)))
  | [] => some []
  | p :: ps =>
    match sainte_lague_final
        ((blaenderOf zweit).map fun b => (b, regionalStimmen zweit p b))
        (fun b => tableLookup wk p b) ((lookupZ gesamt p : ℤ) : ℚ) fuel,
      combineFinal zweit wk gesamt fuel ps with
    | some v, some r => some ((p, v) :: r)
    | _, _ => none

/-- The `get_sitze_pro_bundesland_pro_partei_final` function of the source. -/
def get_sitze_pro_bundesland_pro_partei_final (zweit : Wahltabelle)
    (qual : List ℕ) (wk : Tabelle) (gesamt : List (ℕ × ℤ)) (fuel : ℕ) :
    Option (List (ℕ × List (ℕ × ℚ))) :=
  combineFinal zweit wk gesamt fuel qual

/-- The orchestrator `run_bundestagssitz_verteilung`: stages two to eight
threaded in order, with the nominal seat count fixed at 598. -/
def run_bundestagssitz_verteilung (bev : List (ℕ × ℚ)) (erst zweit : Wahltabelle)
    (fuel : ℕ) : Option (List (ℕ × List (ℕ × ℚ))) :=
  let wk := get_wahlkreissitze_pro_partei_pro_bundesland erst
  match get_sitze_pro_bundesland bev 598 fuel with
  | none => none
  | some sitze =>
    let qual := get_qualifizierte_parteien erst zweit
    match get_listensitze_pro_partei_pro_bundesland sitze zweit qual fuel with
    | none => none
    | some listen =>
      let mindest := get_mindestsitzzahlen_pro_partei_pro_bundesland wk listen
      match get_gesamtzahl_bundestagssitze_pro_partei mindest zweit qual fuel with
      | none => none
      | some gesamt =>
        get_sitze_pro_bundesland_pro_partei_final zweit qual wk gesamt fuel

/-!
Concrete instances used to exercise the pipeline.
-/

/-- A two-Bundesland second-vote table with a single party 0 polling three
votes in each Bundesland. -/
def zweitZweiLaender : Wahltabelle :=
  { parteien := [0]
    zeilen := [⟨0, fun p => if p = 0 then 3 else 0⟩,
               ⟨1, fun p => if p = 0 then 3 else 0⟩] }

/-- A minimum-seat table granting party 0 one seat in Bundesland 0 and two
seats in Bundesland 1. -/
def mindestEinsZwei : Tabelle :=
  { spalten := [0, 1]
    zeilen := [(0, fun b => if b = 0 then 1 else if b = 1 then 2 else 0)] }

/-- A direct-mandate table giving party 0 one constituency win in
Bundesland 0 and none in Bundesland 1. -/
def wkEinsNull : Tabelle :=
  { spalten := [0, 1]
    zeilen := [(0, fun b => if b = 0 then 1 else 0)] }

/-- A constituency row in which the first two parties tie at seven votes. -/
def zeileUnentschieden : Wahlkreiszeile := ⟨0, fun _ => 7⟩

/-- A first-vote table whose single constituency is tied between the two
party columns. -/
def erstUnentschieden : Wahltabelle := ⟨[0, 1], [zeileUnentschieden]⟩

/-- First-vote table in which a third party wins all three constituencies. -/
def erstDreiSiege : Wahltabelle :=
  { parteien := [0, 1, 2]
    zeilen := [⟨0, fun p => if p = 2 then 10 else 0⟩,
               ⟨0, fun p => if p = 2 then 10 else 0⟩,
               ⟨0, fun p => if p = 2 then 10 else 0⟩] }

/-- Second-vote table with shares of exactly five percent for party zero,
four point nine nine percent for party one, and the rest for party two. -/
def zweitFuenfProzent : Wahltabelle :=
  { parteien := [0, 1, 2]
    zeilen := [⟨0, fun p => if p = 0 then 500 else if p = 1 then 499
      else if p = 2 then 9001 else 0⟩] }

/-- Divergence predicate for the floor-constrained allocator: no amount of
fuel makes the call return. -/
def sainteLagueFinalDiverges (values : List (ℕ × ℚ)) (minima : ℕ → ℚ)
    (target : ℚ) : Prop :=
  ∀ fuel, sainte_lague_final values minima target fuel = none

/-- Population table with two equal Bundeslaender. -/
def bevGleich : List (ℕ × ℚ) := [(0, 1), (1, 1)]

/-- First-vote table: one party, one constituency per Bundesland, the
party polling one vote in each. -/
def erstEinePartei : Wahltabelle :=
  { parteien := [0]
    zeilen := [⟨0, fun p => if p = 0 then 1 else 0⟩,
               ⟨1, fun p => if p = 0 then 1 else 0⟩] }

/-- Second-vote table: the same single party polling ten votes in each of
the two constituencies. -/
def zweitEinePartei : Wahltabelle :=
  { parteien := [0]
    zeilen := [⟨0, fun p => if p = 0 then 10 else 0⟩,
               ⟨1, fun p => if p = 0 then 10 else 0⟩] }


/-!
Shape of the values returned by the divisor loops: every returned
allocation is one trial rounding at a positive divisor, and the loop exit
condition holds for it.
-/

theorem roundHalfEven_eq_floor_or (q : ℚ) :
    roundHalfEven q = ⌊q⌋ ∨ roundHalfEven q = ⌊q⌋ + 1 := by
  unfold roundHalfEven
  split
  · exact Or.inl rfl
  · split
    · exact Or.inr rfl
    · split
      · exact Or.inl rfl
      · exact Or.inr rfl

theorem floor_le_roundHalfEven (q : ℚ) : ⌊q⌋ ≤ roundHalfEven q := by
  rcases roundHalfEven_eq_floor_or q with h | h <;> omega

theorem roundHalfEven_nonneg {q : ℚ} (h : 0 ≤ q) : 0 ≤ roundHalfEven q := by
  have h1 : (0 : ℤ) ≤ ⌊q⌋ := Int.floor_nonneg.mpr h
  have h2 := floor_le_roundHalfEven q
  omega

theorem sub_half_le_roundHalfEven (q : ℚ) :
    q - 1/2 ≤ (roundHalfEven q : ℚ) := by
  have hfl : (⌊q⌋ : ℚ) ≤ q := Int.floor_le q
  have hlt : q < (⌊q⌋ : ℚ) + 1 := Int.lt_floor_add_one q
  unfold roundHalfEven
  split
  · rename_i h1
    linarith
  · rename_i h1
    push_cast
    split
    · linarith
    · split <;> linarith

theorem roundHalfEven_le_add_half (q : ℚ) :
    (roundHalfEven q : ℚ) ≤ q + 1/2 := by
  have hfl : (⌊q⌋ : ℚ) ≤ q := Int.floor_le q
  unfold roundHalfEven
  split
  · rename_i h1
    linarith
  · rename_i h1
    push_cast
    split
    · rename_i h2
      linarith
    · split <;> linarith

theorem roundHalfEven_eq_zero {q : ℚ} (h0 : 0 ≤ q) (h1 : q < 1/2) :
    roundHalfEven q = 0 := by
  have hfl : ⌊q⌋ = 0 := by
    rw [Int.floor_eq_zero_iff]
    constructor
    · exact h0
    · linarith
  unfold roundHalfEven
  rw [hfl]
  push_cast
  rw [if_pos (by linarith)]

theorem roundHalfEven_eq_add_one_of_gt {q : ℚ} (h : 1/2 < q - ⌊q⌋) :
    roundHalfEven q = ⌊q⌋ + 1 := by
  unfold roundHalfEven
  rw [if_neg (by linarith), if_pos h]

theorem roundHalfEven_mono {x y : ℚ} (h : x ≤ y) :
    roundHalfEven x ≤ roundHalfEven y := by
  rcases lt_or_eq_of_le (Int.floor_le_floor h) with hf | hf
  · rcases roundHalfEven_eq_floor_or x with hx | hx <;>
      rcases roundHalfEven_eq_floor_or y with hy | hy <;> omega
  · have hfq : (⌊x⌋ : ℚ) = (⌊y⌋ : ℚ) := by rw [hf]
    have hyx : x - ⌊x⌋ ≤ y - ⌊y⌋ := by rw [← hfq]; linarith
    by_cases hx1 : x - ⌊x⌋ < 1/2
    · have hrx : roundHalfEven x = ⌊x⌋ := by
        unfold roundHalfEven
        rw [if_pos hx1]
      rw [hrx, hf]
      exact floor_le_roundHalfEven y
    · by_cases hx2 : 1/2 < x - ⌊x⌋
      · have hy2 : 1/2 < y - ⌊y⌋ := lt_of_lt_of_le hx2 hyx
        rw [roundHalfEven_eq_add_one_of_gt hx2, roundHalfEven_eq_add_one_of_gt hy2, hf]
      · have hhalf : x - ⌊x⌋ = 1/2 := le_antisymm (not_lt.mp hx2) (not_lt.mp hx1)
        by_cases hy2 : 1/2 < y - ⌊y⌋
        · rw [roundHalfEven_eq_add_one_of_gt hy2]
          rcases roundHalfEven_eq_floor_or x with hrx | hrx <;> omega
        · have hyhalf : y - ⌊y⌋ = 1/2 := le_antisymm (not_lt.mp hy2) (by linarith)
          have hxy : x = y := by
            have : x - ⌊x⌋ = y - ⌊y⌋ := by rw [hhalf, hyhalf]
            rw [hfq] at this
            linarith
          rw [hxy]

theorem allocate_nonneg {values : List (ℕ × ℚ)} {d : ℚ}
    (hv : ∀ kv ∈ values, 0 ≤ kv.2) (hd : 0 < d) :
    ∀ kv ∈ allocate values d, 0 ≤ kv.2 := by
  intro kv hkv
  rcases List.mem_map.mp hkv with ⟨xv, hxv, rfl⟩
  exact roundHalfEven_nonneg (div_nonneg (hv xv hxv) (le_of_lt hd))

theorem slDown_some {values : List (ℕ × ℚ)} {target : ℚ} :
    ∀ fuel d a, 0 < d → slDown values target d fuel = some a →
      ∃ d', 0 < d' ∧ a = allocate values d' ∧ target ≤ (allocSum a : ℚ) := by
  intro fuel
  induction fuel with
  | zero => intro d a _ h; simp [slDown] at h
  | succ n ih =>
    intro d a hd h
    simp only [slDown] at h
    split at h
    · exact ih _ a (by positivity) h
    · rename_i hc
      have ha : a = allocate values (d * (999/1000)) := (Option.some.inj h).symm
      refine ⟨d * (999/1000), by positivity, ha, ?_⟩
      rw [ha]
      exact not_lt.mp hc

theorem slUp_some {values : List (ℕ × ℚ)} {target : ℚ} :
    ∀ fuel d a, 0 < d → slUp values target d fuel = some a →
      ∃ d', 0 < d' ∧ a = allocate values d' ∧ (allocSum a : ℚ) ≤ target := by
  intro fuel
  induction fuel with
  | zero => intro d a _ h; simp [slUp] at h
  | succ n ih =>
    intro d a hd h
    simp only [slUp] at h
    split at h
    · exact ih _ a (by positivity) h
    · rename_i hc
      have ha : a = allocate values (d * (1001/1000)) := (Option.some.inj h).symm
      refine ⟨d * (1001/1000), by positivity, ha, ?_⟩
      rw [ha]
      exact not_lt.mp hc

/-- C1 (amended): for every converging call to `sainte_lague` with positive
target and non-negative weights of positive sum, the returned allocation is
the rounding of every weight by one common positive final divisor with
round-half-to-even tie-breaking, hence non-negative everywhere; its sum
equals the target whenever the initial rounding already sums to the target,
and otherwise the loop stops at the first crossing, so the sum is at least
the target when the search starts below it and at most the target when it
starts above it — but it need not equal the target exactly. -/
theorem sainte_lague_single_divisor_crossing
    (values : List (ℕ × ℚ)) (target : ℚ) (fuel : ℕ) (a : List (ℕ × ℤ))
    (hv : ∀ kv ∈ values, 0 ≤ kv.2) (hs : 0 < valsSum values) (ht : 0 < target)
    (h : sainte_lague values target fuel = some a) :
    (∃ d, 0 < d ∧ a = allocate values d) ∧
    (∀ kv ∈ a, 0 ≤ kv.2) ∧
    ((allocSum (allocate values (valsSum values / target)) : ℚ) = target →
      (allocSum a : ℚ) = target) ∧
    ((allocSum (allocate values (valsSum values / target)) : ℚ) < target →
      target ≤ (allocSum a : ℚ)) ∧
    (target < (allocSum (allocate values (valsSum values / target)) : ℚ) →
      (allocSum a : ℚ) ≤ target) := by
  have hd0 : 0 < valsSum values / target := div_pos hs ht
  simp only [sainte_lague] at h
  split at h
  · rename_i hc
    have ha : a = allocate values (valsSum values / target) := (Option.some.inj h).symm
    refine ⟨⟨_, hd0, ha⟩, ha ▸ allocate_nonneg hv hd0, ?_, ?_, ?_⟩
    · intro _; rw [ha]; exact hc
    · intro hlt; rw [hc] at hlt; exact absurd hlt (lt_irrefl _)
    · intro hlt; rw [hc] at hlt; exact absurd hlt (lt_irrefl _)
  · split at h
    · rename_i hne hlt
      rcases slDown_some fuel _ a hd0 h with ⟨d', hd', ha, hcross⟩
      refine ⟨⟨d', hd', ha⟩, ha ▸ allocate_nonneg hv hd', ?_, ?_, ?_⟩
      · intro he; exact absurd he hne
      · intro _; exact hcross
      · intro hgt; exact absurd hgt (not_lt.mpr (le_of_lt hlt))
    · rename_i hne hnlt
      have hgt : target < (allocSum (allocate values (valsSum values / target)) : ℚ) :=
        lt_of_le_of_ne (not_lt.mp hnlt) (fun he => hne he.symm)
      rcases slUp_some fuel _ a hd0 h with ⟨d', hd', ha, hcross⟩
      refine ⟨⟨d', hd', ha⟩, ha ▸ allocate_nonneg hv hd', ?_, ?_, ?_⟩
      · intro he; exact absurd he hne
      · intro hlt; exact absurd hlt (not_lt.mpr (le_of_lt hgt))
      · intro _; exact hcross

/-- C1 (witness): the amended statement instantiated at weights three and
three with target one. -/
theorem sainte_lague_single_divisor_crossing_witness :
    (∃ d, 0 < d ∧ [((0:ℕ), (1:ℤ)), (1, 1)] = allocate [(0, 3), (1, 3)] d) ∧
    (∀ kv ∈ [((0:ℕ), (1:ℤ)), (1, 1)], 0 ≤ kv.2) ∧
    ((allocSum (allocate [(0, 3), (1, 3)] (valsSum [(0, 3), (1, 3)] / 1)) : ℚ) = 1 →
      (allocSum [((0:ℕ), (1:ℤ)), (1, 1)] : ℚ) = 1) ∧
    ((allocSum (allocate [(0, 3), (1, 3)] (valsSum [(0, 3), (1, 3)] / 1)) : ℚ) < 1 →
      (1:ℚ) ≤ (allocSum [((0:ℕ), (1:ℤ)), (1, 1)] : ℚ)) ∧
    ((1:ℚ) < (allocSum (allocate [(0, 3), (1, 3)] (valsSum [(0, 3), (1, 3)] / 1)) : ℚ) →
      (allocSum [((0:ℕ), (1:ℤ)), (1, 1)] : ℚ) ≤ 1) :=
  sainte_lague_single_divisor_crossing [(0, 3), (1, 3)] 1 5 [(0, 1), (1, 1)]
    (by with_unfolding_all decide) (by with_unfolding_all decide)
    (by with_unfolding_all decide) (by with_unfolding_all decide)

/-- C1 (counterexample): a converging call with positive target and a
positive weight whose returned allocation does not sum to the target: with
weights three and three and target one the rounded sum jumps from zero to
two in one shrink step, and the call returns total two. -/
theorem sainte_lague_sum_mismatch :
    sainte_lague [(0, 3), (1, 3)] 1 5 = some [(0, 1), (1, 1)] ∧
    (allocSum [((0:ℕ), (1:ℤ)), (1, 1)] : ℚ) ≠ 1 ∧
    (0:ℚ) < 1 ∧ (0:ℚ) < 3 := by
  with_unfolding_all decide

/-- C6 (amended): `sainte_lague` performs no degenerate-input check: a call
with target zero and non-zero weight sum silently returns the all-zero
allocation, because the initial divisor becomes infinite in the source
(zero in this rational model) so every rounded quotient is zero and the
zero sum already equals the zero target. -/
theorem sainte_lague_target_zero_silent (values : List (ℕ × ℚ)) (fuel : ℕ)
    (_hnz : valsSum values ≠ 0) :
    sainte_lague values 0 fuel = some (values.map fun kv => (kv.1, 0)) := by
  have hrz : roundHalfEven 0 = 0 := by
    have := roundHalfEven_eq_zero (le_refl (0:ℚ)) (by norm_num)
    exact this
  have hall : allocate values (valsSum values / 0) =
      values.map fun kv => (kv.1, 0) := by
    unfold allocate
    apply List.map_congr_left
    intro kv _
    rw [div_zero, div_zero, hrz]
  have hsum : (allocSum (values.map fun kv => (kv.1, (0:ℤ))) : ℚ) = 0 := by
    have hz : allocSum (values.map fun kv => (kv.1, (0:ℤ))) = 0 := by
      unfold allocSum
      rw [List.map_map]
      apply List.sum_eq_zero
      intro x hx
      rcases List.mem_map.mp hx with ⟨kv, _, rfl⟩
      rfl
    rw [hz]
    rfl
  simp only [sainte_lague, hall, hsum, if_pos]

/-- C6 (witness): the amended statement instantiated at a single weight of
one with target zero. -/
theorem sainte_lague_target_zero_silent_witness :
    sainte_lague [(0, 1)] 0 3 = some ([((0:ℕ), (1:ℚ))].map fun kv => (kv.1, 0)) :=
  sainte_lague_target_zero_silent [(0, 1)] 3 (by with_unfolding_all decide)

/-- C6 (counterexample): a call with degenerate target zero and a positive
weight returns a silent all-zero allocation instead of surfacing an error;
the source has no raise statement at all on this path. -/
theorem sainte_lague_degenerate_silent :
    sainte_lague [(0, 1)] 0 3 = some [(0, 0)] ∧
    (sainte_lague [(0, 1)] 0 3).isSome = true := by
  with_unfolding_all decide

/-!
Plurality winners: the running best of the `idxmax` fold only moves on a
strictly larger value, so the first column attaining the maximum wins.
-/

theorem idxmaxFold_mem (f : ℕ → ℚ) :
    ∀ (cs : List ℕ) (c : ℕ),
      cs.foldl (fun best x => if f best < f x then x else best) c ∈ c :: cs := by
  intro cs
  induction cs with
  | nil => intro c; simp
  | cons x xs ih =>
    intro c
    simp only [List.foldl_cons]
    by_cases hx : f c < f x
    · rw [if_pos hx]
      have h := ih x
      simp only [List.mem_cons] at h ⊢
      tauto
    · rw [if_neg hx]
      have h := ih c
      simp only [List.mem_cons] at h ⊢
      tauto

theorem idxmaxFold_keep (f : ℕ → ℚ) :
    ∀ (cs : List ℕ) (c : ℕ), (∀ x ∈ cs, f x ≤ f c) →
      cs.foldl (fun best x => if f best < f x then x else best) c = c := by
  intro cs
  induction cs with
  | nil => intro c _; rfl
  | cons x xs ih =>
    intro c h
    simp only [List.foldl_cons]
    rw [if_neg (not_lt.mpr (h x (List.mem_cons_self x xs)))]
    exact ih c fun y hy => h y (List.mem_cons_of_mem x hy)

theorem idxmax_first_max (f : ℕ → ℚ) (l₁ : List ℕ) (p : ℕ) (l₂ : List ℕ)
    (hb : ∀ q ∈ l₁, f q < f p) (ha : ∀ q ∈ l₂, f q ≤ f p) :
    idxmax (l₁ ++ p :: l₂) f = p := by
  cases l₁ with
  | nil =>
    simp only [List.nil_append, idxmax]
    exact idxmaxFold_keep f l₂ p ha
  | cons c cs =>
    simp only [List.cons_append, idxmax]
    rw [List.foldl_append]
    have hbm := idxmaxFold_mem f cs c
    have hbp : f (cs.foldl (fun best x => if f best < f x then x else best) c) < f p :=
      hb _ hbm
    simp only [List.foldl_cons]
    rw [if_pos hbp]
    exact idxmaxFold_keep f l₂ p ha

/-- C10: when several parties share the maximal first-vote count of a
constituency, the winner computed by `idxmax` is the tied party whose
column occurs first in the party-column order (every earlier column is
strictly below it, every later column at most it), and the winner list of
`get_wahlkreissitze_pro_partei_pro_bundesland` records that constituency
for exactly this party — no failure occurs. -/
theorem wahlkreis_tie_breaks_to_first_column (t : Wahltabelle)
    (z : Wahlkreiszeile) (hz : z ∈ t.zeilen) (l₁ : List ℕ) (p : ℕ) (l₂ : List ℕ)
    (hparts : t.parteien = l₁ ++ p :: l₂)
    (hb : ∀ q ∈ l₁, z.stimmen q < z.stimmen p)
    (ha : ∀ q ∈ l₂, z.stimmen q ≤ z.stimmen p) :
    idxmax t.parteien z.stimmen = p ∧ (z.bundesland, p) ∈ sieger t := by
  have h1 : idxmax t.parteien z.stimmen = p := by
    rw [hparts]
    exact idxmax_first_max z.stimmen l₁ p l₂ hb ha
  refine ⟨h1, ?_⟩
  unfold sieger
  exact List.mem_map.mpr ⟨z, hz, by rw [h1]⟩

/-- C10 (witness): in the tied single-constituency table the first column
wins and the winner list records the constituency for party zero. -/
theorem wahlkreis_tie_breaks_to_first_column_witness :
    idxmax erstUnentschieden.parteien zeileUnentschieden.stimmen = 0 ∧
    (zeileUnentschieden.bundesland, 0) ∈ sieger erstUnentschieden :=
  wahlkreis_tie_breaks_to_first_column erstUnentschieden zeileUnentschieden
    (List.mem_singleton.mpr rfl) [] 0 [1] rfl
    (by intro q hq; cases hq)
    (by intro q hq; exact le_refl _)

/-!
Lookup lemmas for keyed rows.
-/

theorem mem_dedupFirst : ∀ (l : List ℕ) (a : ℕ), a ∈ dedupFirst l ↔ a ∈ l := by
  intro l
  induction l with
  | nil => intro a; simp [dedupFirst]
  | cons x xs ih =>
    intro a
    simp only [dedupFirst, List.mem_cons, List.mem_filter]
    constructor
    · rintro (rfl | ⟨h1, _⟩)
      · exact Or.inl rfl
      · exact Or.inr ((ih a).mp h1)
    · rintro (rfl | h)
      · exact Or.inl rfl
      · by_cases hax : a = x
        · exact Or.inl hax
        · exact Or.inr ⟨(ih a).mpr h, by simp [hax]⟩

theorem find?_keyed {β : Type} (g : ℕ → β) :
    ∀ (ks : List ℕ) (p : ℕ), p ∈ ks →
      ((ks.map fun k => (k, g k)).find? fun e => e.1 == p) = some (p, g p) := by
  intro ks
  induction ks with
  | nil => intro p hp; cases hp
  | cons k ks ih =>
    intro p hp
    simp only [List.map_cons]
    by_cases hk : k = p
    · subst hk
      rw [List.find?_cons_of_pos]
      simp
    · rw [List.find?_cons_of_neg]
      · refine ih p ?_
        rcases List.mem_cons.mp hp with h | h
        · exact absurd h.symm hk
        · exact h
      · simp [hk]

theorem find?_keyed_none {β : Type} (g : ℕ → β) (ks : List ℕ) (p : ℕ)
    (hp : p ∉ ks) :
    ((ks.map fun k => (k, g k)).find? fun e => e.1 == p) = none := by
  rw [List.find?_eq_none]
  intro x hx
  rcases List.mem_map.mp hx with ⟨k, hk, rfl⟩
  simp only [beq_iff_eq]
  intro he
  exact hp (he ▸ hk)

theorem filter_eq_nil_of_not_mem_keys (rows : List (ℕ × (ℕ → ℚ))) (p : ℕ)
    (hp : p ∉ rows.map Prod.fst) :
    rows.filter (fun r => r.1 == p) = [] := by
  rw [List.filter_eq_nil_iff]
  intro r hr
  simp only [beq_iff_eq]
  intro he
  exact hp (List.mem_map.mpr ⟨r, hr, he⟩)

theorem filter_key_of_nodup :
    ∀ (rows : List (ℕ × (ℕ → ℚ))), (rows.map Prod.fst).Nodup → ∀ p,
      (p ∉ rows.map Prod.fst ∧ rows.filter (fun r => r.1 == p) = []) ∨
      (∃ f, rows.filter (fun r => r.1 == p) = [(p, f)] ∧
        rows.find? (fun r => r.1 == p) = some (p, f)) := by
  intro rows
  induction rows with
  | nil => intro _ p; exact Or.inl ⟨by simp, rfl⟩
  | cons r rows ih =>
    intro hn p
    simp only [List.map_cons, List.nodup_cons] at hn
    by_cases hr : r.1 = p
    · refine Or.inr ⟨r.2, ?_, ?_⟩
      · rw [List.filter_cons_of_pos (by simp [hr])]
        rw [filter_eq_nil_of_not_mem_keys rows p (by rw [← hr]; exact hn.1)]
        rw [← hr]
      · have hb : ((r.1 == p) = true) := by simp [hr]
        conv_rhs => rw [← hr]
        exact List.find?_cons_of_pos rows hb
    · rcases ih hn.2 p with ⟨hmem, hfil⟩ | ⟨f, hfil, hfind⟩
      · refine Or.inl ⟨?_, ?_⟩
        · simp only [List.map_cons, List.mem_cons]
          rintro (h | h)
          · exact hr h.symm
          · exact hmem h
        · rw [List.filter_cons_of_neg (by simp [hr])]
          exact hfil
      · refine Or.inr ⟨f, ?_, ?_⟩
        · rw [List.filter_cons_of_neg (by simp [hr])]
          exact hfil
        · have hb : ¬ ((r.1 == p) = true) := by simp [hr]
          rw [List.find?_cons_of_neg rows hb]
          exact hfind

theorem tableLookup_eq_zero_of_not_mem (t : Tabelle) (p b : ℕ)
    (hp : p ∉ t.zeilen.map Prod.fst) : tableLookup t p b = 0 := by
  have hf : t.zeilen.find? (fun r => r.1 == p) = none := by
    rw [List.find?_eq_none]
    intro r hr
    simp only [beq_iff_eq]
    intro he
    exact hp (List.mem_map.mpr ⟨r, hr, he⟩)
  unfold tableLookup
  rw [hf]

theorem tableLookup_of_find? (t : Tabelle) (p b : ℕ) (f : ℕ → ℚ)
    (hf : t.zeilen.find? (fun r => r.1 == p) = some (p, f)) :
    tableLookup t p b = f b := by
  unfold tableLookup
  rw [hf]

/-- C4: each cell of `get_mindestsitzzahlen_pro_partei_pro_bundesland` is
the elementwise maximum of the direct-mandate table and the list table at
that party and Bundesland, a party missing from one table contributing
zero; consequently the output cell dominates both input cells. -/
theorem mindestsitzzahlen_elementwise_max (w l : Tabelle) (p b : ℕ)
    (hw : (w.zeilen.map Prod.fst).Nodup) (hl : (l.zeilen.map Prod.fst).Nodup)
    (h0w : 0 ≤ tableLookup w p b) (h0l : 0 ≤ tableLookup l p b) :
    tableLookup (get_mindestsitzzahlen_pro_partei_pro_bundesland w l) p b =
      max (tableLookup w p b) (tableLookup l p b) ∧
    tableLookup w p b ≤
      tableLookup (get_mindestsitzzahlen_pro_partei_pro_bundesland w l) p b ∧
    tableLookup l p b ≤
      tableLookup (get_mindestsitzzahlen_pro_partei_pro_bundesland w l) p b := by
  have hmain : tableLookup (get_mindestsitzzahlen_pro_partei_pro_bundesland w l) p b =
      max (tableLookup w p b) (tableLookup l p b) := by
    rcases filter_key_of_nodup w.zeilen hw p with ⟨hwm, hwf⟩ | ⟨fw, hwf, hwfind⟩ <;>
      rcases filter_key_of_nodup l.zeilen hl p with ⟨hlm, hlf⟩ | ⟨fl, hlf, hlfind⟩
    · have hmem : p ∉ (w.zeilen ++ l.zeilen).map Prod.fst := by
        rw [List.map_append]
        intro hmem
        rcases List.mem_append.mp hmem with h | h
        · exact hwm h
        · exact hlm h
      have h1 : tableLookup (get_mindestsitzzahlen_pro_partei_pro_bundesland w l) p b = 0 := by
        apply tableLookup_eq_zero_of_not_mem
        unfold get_mindestsitzzahlen_pro_partei_pro_bundesland
        simp only []
        intro hc
        rcases List.mem_map.mp hc with ⟨r, hr, hre⟩
        rcases List.mem_map.mp hr with ⟨k, hk, rfl⟩
        have hkp : k = p := hre
        rw [hkp] at hk
        exact hmem ((mem_dedupFirst _ p).mp hk)
      rw [h1, tableLookup_eq_zero_of_not_mem w p b hwm,
        tableLookup_eq_zero_of_not_mem l p b hlm]
      simp
    · have hpl : p ∈ l.zeilen.map Prod.fst := by
        have : (p, fl) ∈ l.zeilen := by
          have h2 : (p, fl) ∈ l.zeilen.filter (fun r => r.1 == p) := by
            rw [hlf]; exact List.mem_singleton.mpr rfl
          exact List.mem_of_mem_filter h2
        exact List.mem_map.mpr ⟨(p, fl), this, rfl⟩
      have hpm : p ∈ (w.zeilen ++ l.zeilen).map Prod.fst := by
        rw [List.map_append]
        exact List.mem_append.mpr (Or.inr hpl)
      have hval : tableLookup (get_mindestsitzzahlen_pro_partei_pro_bundesland w l) p b =
          qmaxList ((((w.zeilen ++ l.zeilen).filter fun r => r.1 == p).map Prod.snd).map
            fun f => f b) := by
        apply tableLookup_of_find?
        unfold get_mindestsitzzahlen_pro_partei_pro_bundesland
        simp only []
        exact find?_keyed _ _ p ((mem_dedupFirst _ p).mpr hpm)
      rw [hval, List.filter_append, hwf, hlf]
      rw [tableLookup_eq_zero_of_not_mem w p b hwm, tableLookup_of_find? l p b fl hlfind]
      simp only [List.nil_append, List.map_cons, List.map_nil, qmaxList, List.foldl_nil]
      have h0l2 : 0 ≤ fl b := by
        rw [tableLookup_of_find? l p b fl hlfind] at h0l
        exact h0l
      exact (max_eq_right h0l2).symm
    · have hpw : p ∈ w.zeilen.map Prod.fst := by
        have : (p, fw) ∈ w.zeilen := by
          have h2 : (p, fw) ∈ w.zeilen.filter (fun r => r.1 == p) := by
            rw [hwf]; exact List.mem_singleton.mpr rfl
          exact List.mem_of_mem_filter h2
        exact List.mem_map.mpr ⟨(p, fw), this, rfl⟩
      have hpm : p ∈ (w.zeilen ++ l.zeilen).map Prod.fst := by
        rw [List.map_append]
        exact List.mem_append.mpr (Or.inl hpw)
      have hval : tableLookup (get_mindestsitzzahlen_pro_partei_pro_bundesland w l) p b =
          qmaxList ((((w.zeilen ++ l.zeilen).filter fun r => r.1 == p).map Prod.snd).map
            fun f => f b) := by
        apply tableLookup_of_find?
        unfold get_mindestsitzzahlen_pro_partei_pro_bundesland
        simp only []
        exact find?_keyed _ _ p ((mem_dedupFirst _ p).mpr hpm)
      rw [hval, List.filter_append, hwf, hlf]
      rw [tableLookup_eq_zero_of_not_mem l p b hlm, tableLookup_of_find? w p b fw hwfind]
      simp only [List.append_nil, List.map_cons, List.map_nil, qmaxList, List.foldl_nil]
      have h0w2 : 0 ≤ fw b := by
        rw [tableLookup_of_find? w p b fw hwfind] at h0w
        exact h0w
      exact (max_eq_left h0w2).symm
    · have hpw : p ∈ w.zeilen.map Prod.fst := by
        have : (p, fw) ∈ w.zeilen := by
          have h2 : (p, fw) ∈ w.zeilen.filter (fun r => r.1 == p) := by
            rw [hwf]; exact List.mem_singleton.mpr rfl
          exact List.mem_of_mem_filter h2
        exact List.mem_map.mpr ⟨(p, fw), this, rfl⟩
      have hpm : p ∈ (w.zeilen ++ l.zeilen).map Prod.fst := by
        rw [List.map_append]
        exact List.mem_append.mpr (Or.inl hpw)
      have hval : tableLookup (get_mindestsitzzahlen_pro_partei_pro_bundesland w l) p b =
          qmaxList ((((w.zeilen ++ l.zeilen).filter fun r => r.1 == p).map Prod.snd).map
            fun f => f b) := by
        apply tableLookup_of_find?
        unfold get_mindestsitzzahlen_pro_partei_pro_bundesland
        simp only []
        exact find?_keyed _ _ p ((mem_dedupFirst _ p).mpr hpm)
      rw [hval, List.filter_append, hwf, hlf]
      rw [tableLookup_of_find? w p b fw hwfind, tableLookup_of_find? l p b fl hlfind]
      simp only [List.cons_append, List.nil_append, List.map_cons, List.map_nil,
        qmaxList, List.foldl_cons, List.foldl_nil]
  exact ⟨hmain, hmain ▸ le_max_left _ _, hmain ▸ le_max_right _ _⟩

/-- C4 (witness): the elementwise-maximum statement instantiated at the
concrete direct-mandate and minimum tables at party zero, Bundesland one. -/
theorem mindestsitzzahlen_elementwise_max_witness :
    tableLookup (get_mindestsitzzahlen_pro_partei_pro_bundesland wkEinsNull
      mindestEinsZwei) 0 1 =
      max (tableLookup wkEinsNull 0 1) (tableLookup mindestEinsZwei 0 1) ∧
    tableLookup wkEinsNull 0 1 ≤
      tableLookup (get_mindestsitzzahlen_pro_partei_pro_bundesland wkEinsNull
        mindestEinsZwei) 0 1 ∧
    tableLookup mindestEinsZwei 0 1 ≤
      tableLookup (get_mindestsitzzahlen_pro_partei_pro_bundesland wkEinsNull
        mindestEinsZwei) 0 1 :=
  mindestsitzzahlen_elementwise_max wkEinsNull mindestEinsZwei 0 1
    (by with_unfolding_all decide) (by with_unfolding_all decide)
    (by with_unfolding_all decide) (by with_unfolding_all decide)

/-- C5: a party among the second-vote columns is qualified if and only if
its national second-vote share reaches one twentieth of all second votes
cast, or it reaches three constituency wins summed nationally; so a party
at exactly five percent qualifies and a party below that share with fewer
than three direct mandates is excluded. -/
theorem qualifizierte_parteien_iff (erst zweit : Wahltabelle) (p : ℕ)
    (hp : p ∈ zweit.parteien) :
    p ∈ get_qualifizierte_parteien erst zweit ↔
      ((1/20 : ℚ) ≤ nationalStimmen zweit p /
          (zweit.parteien.map fun q => nationalStimmen zweit q).sum ∨
        (3:ℚ) ≤ rowSum (get_wahlkreissitze_pro_partei_pro_bundesland erst) p) := by
  unfold get_qualifizierte_parteien
  simp only []
  rw [mem_dedupFirst, List.mem_append]
  constructor
  · rintro (h | h)
    · rcases List.mem_filter.mp h with ⟨_, hcond⟩
      exact Or.inl (of_decide_eq_true hcond)
    · rcases List.mem_filter.mp h with ⟨_, hcond⟩
      exact Or.inr (of_decide_eq_true hcond)
  · rintro (h | h)
    · exact Or.inl (List.mem_filter.mpr ⟨hp, decide_eq_true h⟩)
    · refine Or.inr (List.mem_filter.mpr ⟨?_, decide_eq_true h⟩)
      by_contra hab
      have hz : rowSum (get_wahlkreissitze_pro_partei_pro_bundesland erst) p = 0 := by
        unfold rowSum
        apply List.sum_eq_zero
        intro x hx
        rcases List.mem_map.mp hx with ⟨b, hb, rfl⟩
        exact tableLookup_eq_zero_of_not_mem _ p b hab
      rw [hz] at h
      norm_num at h

/-- C5 (witness): in the concrete tables the party at exactly five percent
is qualified and the party at four point nine nine percent with no direct
mandate is not. -/
theorem qualifizierte_parteien_iff_witness :
    0 ∈ get_qualifizierte_parteien erstDreiSiege zweitFuenfProzent ∧
    1 ∉ get_qualifizierte_parteien erstDreiSiege zweitFuenfProzent := by
  constructor
  · exact (qualifizierte_parteien_iff erstDreiSiege zweitFuenfProzent 0
      (by with_unfolding_all decide)).mpr (Or.inl (by with_unfolding_all decide))
  · intro hc
    rcases (qualifizierte_parteien_iff erstDreiSiege zweitFuenfProzent 1
      (by with_unfolding_all decide)).mp hc with h | h
    · revert h; with_unfolding_all decide
    · revert h; with_unfolding_all decide

/-!
National seat totals: the solver loop only returns allocations passing the
floor test.
-/

theorem allocate_keyed (g : ℕ → ℚ) (ks : List ℕ) (d : ℚ) :
    allocate (ks.map fun k => (k, g k)) d =
      ks.map fun k => (k, roundHalfEven (g k / d)) := by
  unfold allocate
  rw [List.map_map]
  rfl

theorem lookupZ_keyed (g : ℕ → ℤ) (ks : List ℕ) (p : ℕ) (hp : p ∈ ks) :
    lookupZ (ks.map fun k => (k, g k)) p = g p := by
  unfold lookupZ
  rw [find?_keyed g ks p hp]
  rfl

theorem lookupQ_keyed (g : ℕ → ℚ) (ks : List ℕ) (p : ℕ) (hp : p ∈ ks) :
    lookupQ (ks.map fun k => (k, g k)) p = g p := by
  unfold lookupQ
  rw [find?_keyed g ks p hp]
  rfl

theorem gzLoop_some {votes : List (ℕ × ℚ)} {floors : ℕ → ℚ} :
    ∀ fuel d a, gzLoop votes floors d fuel = some a →
      gzOk a floors ∧ ∃ d', a = allocate votes d' := by
  intro fuel
  induction fuel with
  | zero => intro d a h; simp [gzLoop] at h
  | succ n ih =>
    intro d a h
    simp only [gzLoop] at h
    split at h
    · rename_i hc
      have ha : a = allocate votes (d * (9999/10000)) := (Option.some.inj h).symm
      exact ⟨ha ▸ hc, _, ha⟩
    · exact ih _ a h

/-- C3: whenever the national solver converges, every qualified party is
allotted at least its national floor, the row sum of the minimum-seat
table across the Bundeslaender. -/
theorem gesamtzahl_ge_floor (mindest : Tabelle) (zweit : Wahltabelle)
    (qual : List ℕ) (fuel : ℕ) (a : List (ℕ × ℤ))
    (h : get_gesamtzahl_bundestagssitze_pro_partei mindest zweit qual fuel = some a)
    (p : ℕ) (hp : p ∈ qual) :
    rowSum mindest p ≤ (lookupZ a p : ℚ) := by
  have hok : gzOk a (fun q => rowSum mindest q) ∧
      ∃ d', a = allocate (qual.map fun q => (q, nationalStimmen zweit q)) d' := by
    unfold get_gesamtzahl_bundestagssitze_pro_partei at h
    simp only [] at h
    split at h
    · rename_i hc
      have ha := (Option.some.inj h).symm
      exact ⟨by rw [ha]; exact hc, _, ha⟩
    · exact gzLoop_some fuel _ a h
  obtain ⟨hok1, d, hd⟩ := hok
  subst hd
  rw [allocate_keyed] at hok1 ⊢
  rw [lookupZ_keyed _ qual p hp]
  exact hok1 (p, _) (List.mem_map.mpr ⟨p, hp, rfl⟩)

/-- C3 (witness): the floor statement instantiated at the concrete solver
run, where party zero has floor three and receives exactly three seats. -/
theorem gesamtzahl_ge_floor_witness :
    rowSum mindestEinsZwei 0 ≤ (lookupZ [(0, 3)] 0 : ℚ) :=
  gesamtzahl_ge_floor mindestEinsZwei zweitZweiLaender [0] 3 [(0, 3)]
    (by with_unfolding_all decide) 0 (by with_unfolding_all decide)

/-!
Shape of the values returned by the constrained loops of
`sainte_lague_final`: always one clamped trial rounding.
-/

theorem slfDown_some {values : List (ℕ × ℚ)} {minima : ℕ → ℚ} {target : ℚ} :
    ∀ fuel d a, slfDown values minima target d fuel = some a →
      (∃ d', a = interimOf (allocate values d') minima) ∧ target ≤ qSum a := by
  intro fuel
  induction fuel with
  | zero => intro d a h; simp [slfDown] at h
  | succ n ih =>
    intro d a h
    simp only [slfDown] at h
    split at h
    · exact ih _ a h
    · rename_i hc
      have ha := (Option.some.inj h).symm
      refine ⟨⟨_, ha⟩, ?_⟩
      rw [ha]
      exact not_lt.mp hc

theorem slfUp_some {values : List (ℕ × ℚ)} {minima : ℕ → ℚ} {target : ℚ} :
    ∀ fuel d a, slfUp values minima target d fuel = some a →
      (∃ d', a = interimOf (allocate values d') minima) ∧ qSum a ≤ target := by
  intro fuel
  induction fuel with
  | zero => intro d a h; simp [slfUp] at h
  | succ n ih =>
    intro d a h
    simp only [slfUp] at h
    split at h
    · exact ih _ a h
    · rename_i hc
      have ha := (Option.some.inj h).symm
      refine ⟨⟨_, ha⟩, ?_⟩
      rw [ha]
      exact not_lt.mp hc

theorem sainte_lague_final_some {values : List (ℕ × ℚ)} {minima : ℕ → ℚ}
    {target : ℚ} {fuel : ℕ} {a : List (ℕ × ℚ)}
    (h : sainte_lague_final values minima target fuel = some a) :
    ∃ d, a = interimOf (allocate values d) minima := by
  simp only [sainte_lague_final] at h
  split at h
  · exact ⟨_, (Option.some.inj h).symm⟩
  · split at h
    · exact (slfDown_some fuel _ a h).1
    · exact (slfUp_some fuel _ a h).1

theorem interimOf_keyed (g : ℕ → ℚ) (minima : ℕ → ℚ) (ks : List ℕ) (d : ℚ) :
    interimOf (allocate (ks.map fun k => (k, g k)) d) minima =
      ks.map fun k => (k, max ((roundHalfEven (g k / d) : ℤ) : ℚ) (minima k)) := by
  rw [allocate_keyed]
  unfold interimOf
  rw [List.map_map]
  rfl

theorem combineFinal_lookup {zweit : Wahltabelle} {wk : Tabelle}
    {gesamt : List (ℕ × ℤ)} {fuel : ℕ} :
    ∀ qual out, combineFinal zweit wk gesamt fuel qual = some out →
      ∀ p ∈ qual, ∃ v,
        sainte_lague_final
          ((blaenderOf zweit).map fun b => (b, regionalStimmen zweit p b))
          (fun b => tableLookup wk p b) ((lookupZ gesamt p : ℤ) : ℚ) fuel = some v ∧
        lookupRowQ out p = v := by
  intro qual
  induction qual with
  | nil => intro out _ p hp; cases hp
  | cons q qs ih =>
    intro out h p hp
    simp only [combineFinal] at h
    split at h
    · rename_i v rest hv hrest
      have hout : out = (q, v) :: rest := (Option.some.inj h).symm
      subst hout
      by_cases hpq : p = q
      · subst hpq
        refine ⟨v, hv, ?_⟩
        unfold lookupRowQ
        rw [List.find?_cons_of_pos _ (by simp)]
        rfl
      · obtain ⟨v', hv', hrow⟩ := ih rest hrest p (by
          rcases List.mem_cons.mp hp with h1 | h1
          · exact absurd h1 hpq
          · exact h1)
        refine ⟨v', hv', ?_⟩
        unfold lookupRowQ
        rw [List.find?_cons_of_neg _ (by
          simp only [beq_iff_eq]
          exact fun hqp => hpq hqp.symm)]
        exact hrow
    · exact absurd h (by simp)

/-- C2 (amended): whenever the final distribution converges, every
qualified party receives in every Bundesland of the second-vote table at
least its direct-mandate count there; the per-party sum across the
Bundeslaender, however, is only guaranteed to cross the national total,
not to equal it exactly. -/
theorem final_ge_direktmandate (zweit : Wahltabelle) (qual : List ℕ)
    (wk : Tabelle) (gesamt : List (ℕ × ℤ)) (fuel : ℕ)
    (out : List (ℕ × List (ℕ × ℚ)))
    (h : get_sitze_pro_bundesland_pro_partei_final zweit qual wk gesamt fuel =
      some out)
    (p : ℕ) (hp : p ∈ qual) (b : ℕ) (hb : b ∈ blaenderOf zweit) :
    tableLookup wk p b ≤ lookupQ (lookupRowQ out p) b := by
  obtain ⟨v, hslf, hrow⟩ := combineFinal_lookup qual out h p hp
  obtain ⟨d, hv⟩ := sainte_lague_final_some hslf
  rw [hrow, hv, interimOf_keyed]
  rw [lookupQ_keyed _ _ b hb]
  exact le_max_right _ _

/-- C2 (witness): the floor statement of the final distribution
instantiated at the concrete tables, party zero, Bundesland zero. -/
theorem final_ge_direktmandate_witness :
    tableLookup wkEinsNull 0 0 ≤
      lookupQ (lookupRowQ [(0, [(0, 1), (1, 1)])] 0) 0 :=
  final_ge_direktmandate zweitZweiLaender [0] wkEinsNull [(0, 3)] 3
    [(0, [(0, 1), (1, 1)])] (by with_unfolding_all decide) 0
    (by with_unfolding_all decide) 0 (by with_unfolding_all decide)

/-- C2 (counterexample): a solver-produced national total of three for
party zero which the converged final distribution fails to meet: the
clamped rounding jumps from sum four to sum two in one growth step, and
the per-party row returned for party zero sums to two, not three. -/
theorem final_sum_mismatch :
    get_gesamtzahl_bundestagssitze_pro_partei mindestEinsZwei zweitZweiLaender
      [0] 3 = some [(0, 3)] ∧
    get_sitze_pro_bundesland_pro_partei_final zweitZweiLaender [0] wkEinsNull
      [(0, 3)] 3 = some [(0, [(0, 1), (1, 1)])] ∧
    qSum [(0, 1), (1, 1)] ≠ ((3 : ℤ) : ℚ) := by
  with_unfolding_all decide

/-!
Monotonicity of `sainte_lague` in one weight.
-/

theorem valsSum_middle (pre post : List (ℕ × ℚ)) (i : ℕ) (w : ℚ) :
    valsSum (pre ++ (i, w) :: post) = w + (valsSum pre + valsSum post) := by
  unfold valsSum
  rw [List.map_append, List.sum_append, List.map_cons, List.sum_cons]
  ring

theorem lookupZ_allocate_middle (pre post : List (ℕ × ℚ)) (i : ℕ) (w : ℚ)
    (d : ℚ) (hi : i ∉ pre.map Prod.fst) :
    lookupZ (allocate (pre ++ (i, w) :: post) d) i = roundHalfEven (w / d) := by
  unfold allocate lookupZ
  rw [List.map_append, List.find?_append]
  have hnone : ((pre.map fun kv => (kv.1, roundHalfEven (kv.2 / d))).find?
      fun e => e.1 == i) = none := by
    rw [List.find?_eq_none]
    intro x hx
    rcases List.mem_map.mp hx with ⟨kv, hkv, rfl⟩
    simp only [beq_iff_eq]
    intro he
    exact hi (List.mem_map.mpr ⟨kv, hkv, he⟩)
  rw [hnone]
  simp only [List.map_cons]
  rw [Option.none_or]
  rw [List.find?_cons_of_pos _ (by simp)]
  rfl

/-- C8 (amended): `sainte_lague` is monotone in a single weight whenever
both the call before and the call after the increase converge at the
initial divisor, without entering the step loops: then the increased key
receives at least as many seats as before.  The step-loop region is
excluded, where monotonicity can fail. -/
theorem sainte_lague_monotone_initial
    (pre post : List (ℕ × ℚ)) (i : ℕ) (w w' : ℚ) (target : ℚ) (fuel : ℕ)
    (hi : i ∉ pre.map Prod.fst)
    (hpre : ∀ kv ∈ pre, 0 ≤ kv.2) (hpost : ∀ kv ∈ post, 0 ≤ kv.2)
    (_hw0 : 0 ≤ w) (hww : w ≤ w')
    (hs : 0 < valsSum (pre ++ (i, w) :: post))
    (ht : 0 < target)
    (hA : (allocSum (allocate (pre ++ (i, w) :: post)
      (valsSum (pre ++ (i, w) :: post) / target)) : ℚ) = target)
    (hB : (allocSum (allocate (pre ++ (i, w') :: post)
      (valsSum (pre ++ (i, w') :: post) / target)) : ℚ) = target) :
    sainte_lague (pre ++ (i, w) :: post) target fuel =
      some (allocate (pre ++ (i, w) :: post)
        (valsSum (pre ++ (i, w) :: post) / target)) ∧
    sainte_lague (pre ++ (i, w') :: post) target fuel =
      some (allocate (pre ++ (i, w') :: post)
        (valsSum (pre ++ (i, w') :: post) / target)) ∧
    lookupZ (allocate (pre ++ (i, w) :: post)
        (valsSum (pre ++ (i, w) :: post) / target)) i ≤
      lookupZ (allocate (pre ++ (i, w') :: post)
        (valsSum (pre ++ (i, w') :: post) / target)) i := by
  have hR : 0 ≤ valsSum pre + valsSum post := by
    apply add_nonneg
    · apply List.sum_nonneg
      intro x hx
      rcases List.mem_map.mp hx with ⟨kv, hkv, rfl⟩
      exact hpre kv hkv
    · apply List.sum_nonneg
      intro x hx
      rcases List.mem_map.mp hx with ⟨kv, hkv, rfl⟩
      exact hpost kv hkv
  have hSw : valsSum (pre ++ (i, w) :: post) = w + (valsSum pre + valsSum post) :=
    valsSum_middle pre post i w
  have hSw' : valsSum (pre ++ (i, w') :: post) = w' + (valsSum pre + valsSum post) :=
    valsSum_middle pre post i w'
  have hs' : 0 < valsSum (pre ++ (i, w') :: post) := by
    rw [hSw']
    rw [hSw] at hs
    linarith
  refine ⟨?_, ?_, ?_⟩
  · simp only [sainte_lague]
    rw [if_pos hA]
  · simp only [sainte_lague]
    rw [if_pos hB]
  · rw [lookupZ_allocate_middle pre post i w _ hi,
      lookupZ_allocate_middle pre post i w' _ hi]
    apply roundHalfEven_mono
    rw [div_div_eq_mul_div, div_div_eq_mul_div]
    rw [div_le_div_iff₀ hs hs']
    rw [hSw, hSw']
    nlinarith [mul_nonneg (mul_nonneg (le_of_lt ht) hR) (sub_nonneg.mpr hww)]

/-- C8 (amended, witness): the monotone statement instantiated at weights
one and one with the first raised to two, target two, where both calls
converge at the initial divisor. -/
theorem sainte_lague_monotone_initial_witness :
    sainte_lague ([] ++ (0, (1:ℚ)) :: [(1, 1)]) 2 3 =
      some (allocate ([] ++ (0, (1:ℚ)) :: [(1, 1)])
        (valsSum ([] ++ (0, (1:ℚ)) :: [(1, 1)]) / 2)) ∧
    sainte_lague ([] ++ (0, (2:ℚ)) :: [(1, 1)]) 2 3 =
      some (allocate ([] ++ (0, (2:ℚ)) :: [(1, 1)])
        (valsSum ([] ++ (0, (2:ℚ)) :: [(1, 1)]) / 2)) ∧
    lookupZ (allocate ([] ++ (0, (1:ℚ)) :: [(1, 1)])
        (valsSum ([] ++ (0, (1:ℚ)) :: [(1, 1)]) / 2)) 0 ≤
      lookupZ (allocate ([] ++ (0, (2:ℚ)) :: [(1, 1)])
        (valsSum ([] ++ (0, (2:ℚ)) :: [(1, 1)]) / 2)) 0 :=
  sainte_lague_monotone_initial [] [(1, 1)] 0 1 2 2 3
    (by with_unfolding_all decide) (by with_unfolding_all decide)
    (by with_unfolding_all decide) (by with_unfolding_all decide)
    (by with_unfolding_all decide) (by with_unfolding_all decide)
    (by with_unfolding_all decide) (by with_unfolding_all decide)
    (by with_unfolding_all decide)

set_option maxRecDepth 4000 in
/-- C8 (counterexample): raising the weight of key zero from 10014 to
10133 with the other weights and target 1010 fixed lowers the seats of key
zero from 1001 to 1000: the raised call starts one seat above target and
its single growth step drops key zero across two rounding thresholds at
once. -/
theorem sainte_lague_not_monotone :
    sainte_lague [(0, 10014), (1, 57), (2, 29)] 1010 2 =
      some [(0, 1001), (1, 6), (2, 3)] ∧
    sainte_lague [(0, 10133), (1, 57), (2, 29)] 1010 2 =
      some [(0, 1000), (1, 6), (2, 3)] ∧
    (10014 : ℚ) < 10133 ∧
    lookupZ [(0, 1000), (1, 6), (2, 3)] 0 <
      lookupZ [(0, 1001), (1, 6), (2, 3)] 0 := by
  with_unfolding_all decide

/-!
Termination of the divisor searches.  Each loop returns once its exit
condition holds at some step, and Archimedean arguments produce such a
step under the stated side conditions.
-/

theorem slDown_reach {values : List (ℕ × ℚ)} {target : ℚ} :
    ∀ k d, target ≤ (allocSum (allocate values (d * (999/1000)^(k+1))) : ℚ) →
      ∃ fuel a, slDown values target d fuel = some a := by
  intro k
  induction k with
  | zero =>
    intro d hc
    rw [pow_one] at hc
    refine ⟨1, allocate values (d * (999/1000)), ?_⟩
    simp only [slDown]
    rw [if_neg (not_lt.mpr hc)]
  | succ n ih =>
    intro d hc
    by_cases h0 : (allocSum (allocate values (d * (999/1000))) : ℚ) < target
    · have heq : d * (999/1000)^(n+1+1) = (d * (999/1000)) * (999/1000)^(n+1) := by
        ring
      rw [heq] at hc
      obtain ⟨fuel, a, ha⟩ := ih (d * (999/1000)) hc
      refine ⟨fuel + 1, a, ?_⟩
      simp only [slDown]
      rw [if_pos h0]
      exact ha
    · refine ⟨1, allocate values (d * (999/1000)), ?_⟩
      simp only [slDown]
      rw [if_neg h0]

theorem slUp_reach {values : List (ℕ × ℚ)} {target : ℚ} :
    ∀ k d, (allocSum (allocate values (d * (1001/1000)^(k+1))) : ℚ) ≤ target →
      ∃ fuel a, slUp values target d fuel = some a := by
  intro k
  induction k with
  | zero =>
    intro d hc
    rw [pow_one] at hc
    refine ⟨1, allocate values (d * (1001/1000)), ?_⟩
    simp only [slUp]
    rw [if_neg (not_lt.mpr hc)]
  | succ n ih =>
    intro d hc
    by_cases h0 : target < (allocSum (allocate values (d * (1001/1000))) : ℚ)
    · have heq : d * (1001/1000)^(n+1+1) = (d * (1001/1000)) * (1001/1000)^(n+1) := by
        ring
      rw [heq] at hc
      obtain ⟨fuel, a, ha⟩ := ih (d * (1001/1000)) hc
      refine ⟨fuel + 1, a, ?_⟩
      simp only [slUp]
      rw [if_pos h0]
      exact ha
    · refine ⟨1, allocate values (d * (1001/1000)), ?_⟩
      simp only [slUp]
      rw [if_neg h0]

theorem gzLoop_reach {votes : List (ℕ × ℚ)} {floors : ℕ → ℚ} :
    ∀ k d, gzOk (allocate votes (d * (9999/10000)^(k+1))) floors →
      ∃ fuel a, gzLoop votes floors d fuel = some a := by
  intro k
  induction k with
  | zero =>
    intro d hc
    rw [pow_one] at hc
    refine ⟨1, allocate votes (d * (9999/10000)), ?_⟩
    simp only [gzLoop]
    rw [if_pos hc]
  | succ n ih =>
    intro d hc
    by_cases h0 : gzOk (allocate votes (d * (9999/10000))) floors
    · refine ⟨1, allocate votes (d * (9999/10000)), ?_⟩
      simp only [gzLoop]
      rw [if_pos h0]
    · have heq : d * (9999/10000)^(n+1+1) = (d * (9999/10000)) * (9999/10000)^(n+1) := by
        ring
      rw [heq] at hc
      obtain ⟨fuel, a, ha⟩ := ih (d * (9999/10000)) hc
      refine ⟨fuel + 1, a, ?_⟩
      simp only [gzLoop]
      rw [if_neg h0]
      exact ha

theorem slfDown_reach {values : List (ℕ × ℚ)} {minima : ℕ → ℚ} {target : ℚ} :
    ∀ k d, target ≤ qSum (interimOf (allocate values (d * (999/1000)^(k+1))) minima) →
      ∃ fuel a, slfDown values minima target d fuel = some a := by
  intro k
  induction k with
  | zero =>
    intro d hc
    rw [pow_one] at hc
    refine ⟨1, interimOf (allocate values (d * (999/1000))) minima, ?_⟩
    simp only [slfDown]
    rw [if_neg (not_lt.mpr hc)]
  | succ n ih =>
    intro d hc
    by_cases h0 : qSum (interimOf (allocate values (d * (999/1000))) minima) < target
    · have heq : d * (999/1000)^(n+1+1) = (d * (999/1000)) * (999/1000)^(n+1) := by
        ring
      rw [heq] at hc
      obtain ⟨fuel, a, ha⟩ := ih (d * (999/1000)) hc
      refine ⟨fuel + 1, a, ?_⟩
      simp only [slfDown]
      rw [if_pos h0]
      exact ha
    · refine ⟨1, interimOf (allocate values (d * (999/1000))) minima, ?_⟩
      simp only [slfDown]
      rw [if_neg h0]

theorem slfUp_reach {values : List (ℕ × ℚ)} {minima : ℕ → ℚ} {target : ℚ} :
    ∀ k d, qSum (interimOf (allocate values (d * (1001/1000)^(k+1))) minima) ≤ target →
      ∃ fuel a, slfUp values minima target d fuel = some a := by
  intro k
  induction k with
  | zero =>
    intro d hc
    rw [pow_one] at hc
    refine ⟨1, interimOf (allocate values (d * (1001/1000))) minima, ?_⟩
    simp only [slfUp]
    rw [if_neg (not_lt.mpr hc)]
  | succ n ih =>
    intro d hc
    by_cases h0 : target < qSum (interimOf (allocate values (d * (1001/1000))) minima)
    · have heq : d * (1001/1000)^(n+1+1) = (d * (1001/1000)) * (1001/1000)^(n+1) := by
        ring
      rw [heq] at hc
      obtain ⟨fuel, a, ha⟩ := ih (d * (1001/1000)) hc
      refine ⟨fuel + 1, a, ?_⟩
      simp only [slfUp]
      rw [if_pos h0]
      exact ha
    · refine ⟨1, interimOf (allocate values (d * (1001/1000))) minima, ?_⟩
      simp only [slfUp]
      rw [if_neg h0]

theorem exists_shrink_step_big {values : List (ℕ × ℚ)} {target d0 : ℚ}
    (hv : ∀ kv ∈ values, 0 ≤ kv.2) (kv0 : ℕ × ℚ) (hkv0 : kv0 ∈ values)
    (hkv0p : 0 < kv0.2) (ht : 0 < target) (hd0 : 0 < d0) :
    ∃ k, target ≤ (allocSum (allocate values (d0 * (999/1000)^(k+1))) : ℚ) := by
  have hBpos : 0 < kv0.2 / (target + 1/2) := div_pos hkv0p (by linarith)
  obtain ⟨n, hn⟩ := exists_pow_lt_of_lt_one (div_pos hBpos hd0)
    (show (999/1000:ℚ) < 1 by norm_num)
  refine ⟨n, ?_⟩
  have hdpos : 0 < d0 * (999/1000)^(n+1) := by positivity
  have hmono : (999/1000:ℚ)^(n+1) ≤ (999/1000)^n := by
    rw [pow_succ]
    nlinarith [pow_nonneg (show (0:ℚ) ≤ 999/1000 by norm_num) n]
  have hdB : d0 * (999/1000)^(n+1) ≤ kv0.2 / (target + 1/2) := by
    have h2 : (999/1000:ℚ)^(n+1) < kv0.2 / (target + 1/2) / d0 :=
      lt_of_le_of_lt hmono hn
    have h3 : d0 * (999/1000)^(n+1) < d0 * (kv0.2 / (target + 1/2) / d0) := by
      exact mul_lt_mul_of_pos_left h2 hd0
    have h4 : d0 * (kv0.2 / (target + 1/2) / d0) = kv0.2 / (target + 1/2) := by
      field_simp
      ring
    linarith
  have hq : target + 1/2 ≤ kv0.2 / (d0 * (999/1000)^(n+1)) := by
    rw [le_div_iff₀ hdpos]
    calc (target + 1/2) * (d0 * (999/1000)^(n+1)) ≤
        (target + 1/2) * (kv0.2 / (target + 1/2)) := by nlinarith
      _ = kv0.2 := by
        field_simp
        ring
  have hmem : roundHalfEven (kv0.2 / (d0 * (999/1000)^(n+1))) ∈
      (allocate values (d0 * (999/1000)^(n+1))).map Prod.snd := by
    apply List.mem_map.mpr
    exact ⟨(kv0.1, roundHalfEven (kv0.2 / (d0 * (999/1000)^(n+1)))),
      List.mem_map.mpr ⟨kv0, hkv0, rfl⟩, rfl⟩
  have hpos : ∀ x ∈ (allocate values (d0 * (999/1000)^(n+1))).map Prod.snd,
      (0:ℤ) ≤ x := by
    intro x hx
    rcases List.mem_map.mp hx with ⟨kv, hkv, rfl⟩
    exact allocate_nonneg hv hdpos kv hkv
  have hle : roundHalfEven (kv0.2 / (d0 * (999/1000)^(n+1))) ≤
      allocSum (allocate values (d0 * (999/1000)^(n+1))) :=
    List.single_le_sum hpos _ hmem
  have htr : target ≤ (roundHalfEven (kv0.2 / (d0 * (999/1000)^(n+1))) : ℚ) := by
    have hsub := sub_half_le_roundHalfEven (kv0.2 / (d0 * (999/1000)^(n+1)))
    linarith
  calc target ≤ (roundHalfEven (kv0.2 / (d0 * (999/1000)^(n+1))) : ℚ) := htr
    _ ≤ (allocSum (allocate values (d0 * (999/1000)^(n+1))) : ℚ) := by
        exact_mod_cast hle

theorem exists_grow_step_allzero {values : List (ℕ × ℚ)} {d0 : ℚ}
    (hv : ∀ kv ∈ values, 0 ≤ kv.2) (hd0 : 0 < d0) :
    ∃ k, ∀ kv ∈ values,
      roundHalfEven (kv.2 / (d0 * (1001/1000)^(k+1))) = 0 := by
  have hS : 0 ≤ valsSum values := by
    apply List.sum_nonneg
    intro x hx
    rcases List.mem_map.mp hx with ⟨kv, hkv, rfl⟩
    exact hv kv hkv
  obtain ⟨n, hn⟩ := pow_unbounded_of_one_lt (α := ℚ)
    ((2 * valsSum values + 1) / d0) (show (1:ℚ) < 1001/1000 by norm_num)
  refine ⟨n, ?_⟩
  have hmono : (1001/1000:ℚ)^n ≤ (1001/1000)^(n+1) := by
    rw [pow_succ]
    nlinarith [pow_nonneg (show (0:ℚ) ≤ 1001/1000 by norm_num) n]
  have hdbig : 2 * valsSum values + 1 < d0 * (1001/1000)^(n+1) := by
    have h2 : (2 * valsSum values + 1) / d0 < (1001/1000:ℚ)^(n+1) :=
      lt_of_lt_of_le hn hmono
    have h3 : d0 * ((2 * valsSum values + 1) / d0) < d0 * (1001/1000)^(n+1) :=
      mul_lt_mul_of_pos_left h2 hd0
    have h4 : d0 * ((2 * valsSum values + 1) / d0) = 2 * valsSum values + 1 := by
      field_simp
    linarith
  have hdpos : 0 < d0 * (1001/1000)^(n+1) := by positivity
  intro kv hkv
  have hkS : kv.2 ≤ valsSum values := by
    apply List.single_le_sum
    · intro x hx
      rcases List.mem_map.mp hx with ⟨y, hy, rfl⟩
      exact hv y hy
    · exact List.mem_map.mpr ⟨kv, hkv, rfl⟩
  apply roundHalfEven_eq_zero (div_nonneg (hv kv hkv) hdpos.le)
  rw [div_lt_iff₀ hdpos]
  linarith

theorem allocSum_eq_zero_of_allzero {values : List (ℕ × ℚ)} {d : ℚ}
    (hz : ∀ kv ∈ values, roundHalfEven (kv.2 / d) = 0) :
    allocSum (allocate values d) = 0 := by
  unfold allocSum allocate
  rw [List.map_map]
  apply List.sum_eq_zero
  intro x hx
  rcases List.mem_map.mp hx with ⟨kv, hkv, rfl⟩
  exact hz kv hkv

theorem castListSum : ∀ l : List ℤ,
    ((l.sum : ℤ) : ℚ) = (l.map (Int.cast : ℤ → ℚ)).sum
  | [] => by simp
  | x :: xs => by
    rw [List.sum_cons, List.map_cons, List.sum_cons, Int.cast_add, castListSum xs]

theorem allocSum_le_qSum_interim (a : List (ℕ × ℤ)) (minima : ℕ → ℚ) :
    (allocSum a : ℚ) ≤ qSum (interimOf a minima) := by
  unfold allocSum qSum interimOf
  rw [List.map_map]
  have hcast : (((a.map Prod.snd).sum : ℤ) : ℚ) =
      (a.map fun kv => ((kv.2 : ℤ) : ℚ)).sum := by
    rw [castListSum, List.map_map]
    rfl
  rw [hcast]
  apply List.sum_le_sum
  intro kv _
  exact le_max_left _ _

theorem qSum_interim_of_allzero {values : List (ℕ × ℚ)} {minima : ℕ → ℚ} {d : ℚ}
    (hz : ∀ kv ∈ values, roundHalfEven (kv.2 / d) = 0)
    (hm : ∀ kv ∈ values, 0 ≤ minima kv.1) :
    qSum (interimOf (allocate values d) minima) =
      (values.map fun kv => minima kv.1).sum := by
  unfold qSum interimOf allocate
  rw [List.map_map, List.map_map]
  congr 1
  apply List.map_congr_left
  intro kv hkv
  show max ((roundHalfEven (kv.2 / d) : ℤ) : ℚ) (minima kv.1) = minima kv.1
  rw [hz kv hkv]
  push_cast
  exact max_eq_right (hm kv hkv)

theorem exists_floor_divisor (votes : List (ℕ × ℚ)) (floors : ℕ → ℚ)
    (h1 : ∀ kv ∈ votes, 0 ≤ kv.2) (h2 : ∀ kv ∈ votes, 0 < kv.2 ∨ floors kv.1 ≤ 0) :
    ∃ ε, 0 < ε ∧ ∀ d, 0 < d → d ≤ ε → gzOk (allocate votes d) floors := by
  induction votes with
  | nil => exact ⟨1, one_pos, fun d _ _ kv hkv => absurd hkv (List.not_mem_nil kv)⟩
  | cons kv rest ih =>
    obtain ⟨ε', hε', hrest⟩ := ih (fun x hx => h1 x (List.mem_cons_of_mem kv hx))
      (fun x hx => h2 x (List.mem_cons_of_mem kv hx))
    have hkv2 : 0 ≤ kv.2 := h1 kv (List.mem_cons_self kv rest)
    rcases h2 kv (List.mem_cons_self kv rest) with hpos | hfl
    · have hFpos : (0:ℚ) < max (floors kv.1) 0 + 1/2 := by
        have := le_max_right (floors kv.1) (0:ℚ)
        linarith
      have hεhpos : 0 < kv.2 / (max (floors kv.1) 0 + 1/2) := div_pos hpos hFpos
      refine ⟨min (kv.2 / (max (floors kv.1) 0 + 1/2)) ε', lt_min hεhpos hε', ?_⟩
      intro d hd hdle x hx
      rcases List.mem_cons.mp hx with hx | hx
      · subst hx
        show floors kv.1 ≤ ((roundHalfEven (kv.2 / d) : ℤ) : ℚ)
        have hdle1 : d ≤ kv.2 / (max (floors kv.1) 0 + 1/2) :=
          le_trans hdle (min_le_left _ _)
        have hq : max (floors kv.1) 0 + 1/2 ≤ kv.2 / d := by
          rw [le_div_iff₀ hd]
          calc (max (floors kv.1) 0 + 1/2) * d ≤
              (max (floors kv.1) 0 + 1/2) * (kv.2 / (max (floors kv.1) 0 + 1/2)) := by
                nlinarith
            _ = kv.2 := by
              field_simp
              ring
        have hsub := sub_half_le_roundHalfEven (kv.2 / d)
        have hmax := le_max_left (floors kv.1) (0:ℚ)
        linarith
      · exact hrest d hd (le_trans hdle (min_le_right _ _)) x hx
    · refine ⟨ε', hε', ?_⟩
      intro d hd hdle x hx
      rcases List.mem_cons.mp hx with hx | hx
      · subst hx
        show floors kv.1 ≤ ((roundHalfEven (kv.2 / d) : ℤ) : ℚ)
        have hr : (0:ℤ) ≤ roundHalfEven (kv.2 / d) :=
          roundHalfEven_nonneg (div_nonneg hkv2 hd.le)
        have hr2 : (0:ℚ) ≤ ((roundHalfEven (kv.2 / d) : ℤ) : ℚ) := by exact_mod_cast hr
        linarith
      · exact hrest d hd hdle x hx

/-- C7 (amended): the three divisor searches terminate under side
conditions matching their loop structure.  The unconstrained allocator
terminates for every positive target over non-negative weights with at
least one positive weight.  The national solver additionally needs every
qualified party with a positive floor to hold positive votes, and a
positive initial divisor.  The floor-constrained final allocator
additionally needs the summed minima not to exceed the target, since its
clamped sum can never fall below the summed minima.  Without these extra
conditions the constrained loops can run forever. -/
theorem divisor_loops_terminate :
    (∀ (values : List (ℕ × ℚ)) (target : ℚ),
      (∀ kv ∈ values, 0 ≤ kv.2) → (∃ kv ∈ values, 0 < kv.2) → 0 < target →
      ∃ fuel a, sainte_lague values target fuel = some a) ∧
    (∀ (mindest : Tabelle) (zweit : Wahltabelle) (qual : List ℕ),
      (∀ p ∈ qual, 0 ≤ nationalStimmen zweit p) →
      (∀ p ∈ qual, 0 < nationalStimmen zweit p ∨ rowSum mindest p ≤ 0) →
      0 < valsSum (qual.map fun p => (p, nationalStimmen zweit p)) /
        tabelleTotal mindest →
      ∃ fuel a,
        get_gesamtzahl_bundestagssitze_pro_partei mindest zweit qual fuel = some a) ∧
    (∀ (values : List (ℕ × ℚ)) (minima : ℕ → ℚ) (target : ℚ),
      (∀ kv ∈ values, 0 ≤ kv.2) → (∃ kv ∈ values, 0 < kv.2) →
      (∀ kv ∈ values, 0 ≤ minima kv.1) →
      (values.map fun kv => minima kv.1).sum ≤ target → 0 < target →
      ∃ fuel a, sainte_lague_final values minima target fuel = some a) := by
  refine ⟨?_, ?_, ?_⟩
  · intro values target hv hpos ht
    obtain ⟨kv0, hkv0, hkv0p⟩ := hpos
    have hs : 0 < valsSum values := by
      have h1 : kv0.2 ≤ valsSum values := by
        apply List.single_le_sum
        · intro x hx
          rcases List.mem_map.mp hx with ⟨y, hy, rfl⟩
          exact hv y hy
        · exact List.mem_map.mpr ⟨kv0, hkv0, rfl⟩
      linarith
    have hd0 : 0 < valsSum values / target := div_pos hs ht
    by_cases h1 : (allocSum (allocate values (valsSum values / target)) : ℚ) = target
    · refine ⟨0, allocate values (valsSum values / target), ?_⟩
      simp only [sainte_lague]
      rw [if_pos h1]
    by_cases h2 : (allocSum (allocate values (valsSum values / target)) : ℚ) < target
    · obtain ⟨k, hk⟩ := exists_shrink_step_big hv kv0 hkv0 hkv0p ht hd0
      obtain ⟨fuel, a, ha⟩ := slDown_reach k _ hk
      refine ⟨fuel, a, ?_⟩
      simp only [sainte_lague]
      rw [if_neg h1, if_pos h2]
      exact ha
    · obtain ⟨k, hk⟩ := exists_grow_step_allzero hv hd0
      have hz := allocSum_eq_zero_of_allzero hk
      have hk2 : (allocSum (allocate values
          ((valsSum values / target) * (1001/1000)^(k+1))) : ℚ) ≤ target := by
        rw [hz]
        push_cast
        linarith
      obtain ⟨fuel, a, ha⟩ := slUp_reach k _ hk2
      refine ⟨fuel, a, ?_⟩
      simp only [sainte_lague]
      rw [if_neg h1, if_neg h2]
      exact ha
  · intro mindest zweit qual hq1 hq2 hd0
    have h1 : ∀ kv ∈ (qual.map fun p => (p, nationalStimmen zweit p)), 0 ≤ kv.2 := by
      intro kv hkv
      rcases List.mem_map.mp hkv with ⟨p, hp, rfl⟩
      exact hq1 p hp
    have h2 : ∀ kv ∈ (qual.map fun p => (p, nationalStimmen zweit p)),
        0 < kv.2 ∨ rowSum mindest kv.1 ≤ 0 := by
      intro kv hkv
      rcases List.mem_map.mp hkv with ⟨p, hp, rfl⟩
      exact hq2 p hp
    by_cases h0 : gzOk (allocate (qual.map fun p => (p, nationalStimmen zweit p))
        (valsSum (qual.map fun p => (p, nationalStimmen zweit p)) /
          tabelleTotal mindest)) (fun p => rowSum mindest p)
    · refine ⟨0, allocate (qual.map fun p => (p, nationalStimmen zweit p))
        (valsSum (qual.map fun p => (p, nationalStimmen zweit p)) /
          tabelleTotal mindest), ?_⟩
      unfold get_gesamtzahl_bundestagssitze_pro_partei
      simp only []
      rw [if_pos h0]
    · obtain ⟨ε, hε, hok⟩ := exists_floor_divisor _ (fun p => rowSum mindest p) h1 h2
      obtain ⟨n, hn⟩ := exists_pow_lt_of_lt_one (div_pos hε hd0)
        (show (9999/10000:ℚ) < 1 by norm_num)
      have hmono : (9999/10000:ℚ)^(n+1) ≤ (9999/10000)^n := by
        rw [pow_succ]
        nlinarith [pow_nonneg (show (0:ℚ) ≤ 9999/10000 by norm_num) n]
      have hdlt : (valsSum (qual.map fun p => (p, nationalStimmen zweit p)) /
          tabelleTotal mindest) * (9999/10000)^(n+1) ≤ ε := by
        have h2' : (9999/10000:ℚ)^(n+1) < ε / (valsSum (qual.map fun p =>
            (p, nationalStimmen zweit p)) / tabelleTotal mindest) :=
          lt_of_le_of_lt hmono hn
        have h3 := mul_lt_mul_of_pos_left h2' hd0
        have hx : valsSum (qual.map fun p => (p, nationalStimmen zweit p)) /
            tabelleTotal mindest ≠ 0 := ne_of_gt hd0
        have h4 : (valsSum (qual.map fun p => (p, nationalStimmen zweit p)) /
            tabelleTotal mindest) * (ε / (valsSum (qual.map fun p =>
            (p, nationalStimmen zweit p)) / tabelleTotal mindest)) = ε := by
          rw [← mul_div_assoc]
          exact mul_div_cancel_left₀ ε hx
        linarith
      have hcond := hok _ (by positivity) hdlt
      obtain ⟨fuel, a, ha⟩ := gzLoop_reach n _ hcond
      refine ⟨fuel, a, ?_⟩
      unfold get_gesamtzahl_bundestagssitze_pro_partei
      simp only []
      rw [if_neg h0]
      exact ha
  · intro values minima target hv hpos hm hminsum ht
    obtain ⟨kv0, hkv0, hkv0p⟩ := hpos
    have hs : 0 < valsSum values := by
      have h1 : kv0.2 ≤ valsSum values := by
        apply List.single_le_sum
        · intro x hx
          rcases List.mem_map.mp hx with ⟨y, hy, rfl⟩
          exact hv y hy
        · exact List.mem_map.mpr ⟨kv0, hkv0, rfl⟩
      linarith
    have hd0 : 0 < valsSum values / target := div_pos hs ht
    by_cases h1 : qSum (interimOf (allocate values (valsSum values / target)) minima) =
        target
    · refine ⟨0, interimOf (allocate values (valsSum values / target)) minima, ?_⟩
      simp only [sainte_lague_final]
      rw [if_pos h1]
    by_cases h2 : qSum (interimOf (allocate values (valsSum values / target)) minima) <
        target
    · obtain ⟨k, hk⟩ := exists_shrink_step_big hv kv0 hkv0 hkv0p ht hd0
      have hk2 : target ≤ qSum (interimOf (allocate values
          ((valsSum values / target) * (999/1000)^(k+1))) minima) :=
        le_trans hk (allocSum_le_qSum_interim _ _)
      obtain ⟨fuel, a, ha⟩ := slfDown_reach k _ hk2
      refine ⟨fuel, a, ?_⟩
      simp only [sainte_lague_final]
      rw [if_neg h1, if_pos h2]
      exact ha
    · obtain ⟨k, hk⟩ := exists_grow_step_allzero hv hd0
      have hsum := qSum_interim_of_allzero hk hm
      have hk2 : qSum (interimOf (allocate values
          ((valsSum values / target) * (1001/1000)^(k+1))) minima) ≤ target := by
        rw [hsum]
        exact hminsum
      obtain ⟨fuel, a, ha⟩ := slfUp_reach k _ hk2
      refine ⟨fuel, a, ?_⟩
      simp only [sainte_lague_final]
      rw [if_neg h1, if_neg h2]
      exact ha

/-- C7 (witness): the three termination statements instantiated at
concrete converging inputs. -/
theorem divisor_loops_terminate_witness :
    (∃ fuel a, sainte_lague [(0, (3:ℚ))] 2 fuel = some a) ∧
    (∃ fuel a, get_gesamtzahl_bundestagssitze_pro_partei mindestEinsZwei
      zweitZweiLaender [0] fuel = some a) ∧
    (∃ fuel a, sainte_lague_final [(0, (3:ℚ)), (1, 3)] (fun _ => 1) 3 fuel = some a) :=
  ⟨divisor_loops_terminate.1 [(0, 3)] 2 (by with_unfolding_all decide)
      ⟨(0, 3), by with_unfolding_all decide⟩ (by norm_num),
    divisor_loops_terminate.2.1 mindestEinsZwei zweitZweiLaender [0]
      (by with_unfolding_all decide) (by with_unfolding_all decide)
      (by with_unfolding_all decide),
    divisor_loops_terminate.2.2 [(0, 3), (1, 3)] (fun _ => 1) 3
      (by with_unfolding_all decide) ⟨(0, 3), by with_unfolding_all decide⟩
      (by with_unfolding_all decide) (by with_unfolding_all decide) (by norm_num)⟩

/-- C7 (counterexample): a floor-constrained call with positive target and
a positive weight that never terminates: with weight one, minimum five and
target two the clamped sum is pinned at five, above the target, so the
growth loop never exits. -/
theorem final_loop_nonterminating :
    sainteLagueFinalDiverges [(0, 1)] (fun _ => 5) 2 ∧ (0:ℚ) < 2 ∧ (0:ℚ) < 1 := by
  refine ⟨?_, by norm_num, by norm_num⟩
  have hbig : ∀ d : ℚ, (2:ℚ) <
      qSum (interimOf (allocate [(0, (1:ℚ))] d) (fun _ => 5)) := by
    intro d
    show (2:ℚ) < qSum [(0, max ((roundHalfEven ((1:ℚ) / d) : ℤ) : ℚ) 5)]
    have hq : qSum [(0, max ((roundHalfEven ((1:ℚ) / d) : ℤ) : ℚ) 5)] =
        max ((roundHalfEven ((1:ℚ) / d) : ℤ) : ℚ) 5 := by
      simp [qSum]
    rw [hq]
    exact lt_of_lt_of_le (by norm_num) (le_max_right _ _)
  have key : ∀ n d, slfUp [(0, (1:ℚ))] (fun _ => 5) 2 d n = none := by
    intro n
    induction n with
    | zero => intro d; rfl
    | succ m ih =>
      intro d
      simp only [slfUp]
      rw [if_pos (hbig _)]
      exact ih _
  intro fuel
  simp only [sainte_lague_final]
  rw [if_neg (ne_of_gt (hbig _)), if_neg (not_lt.mpr (le_of_lt (hbig _)))]
  exact key fuel _

/-!
Determinism of the pipeline: a converged result does not depend on the
fuel bound, so any two converging runs on the same inputs agree.
-/

theorem slDown_fuel_mono {values : List (ℕ × ℚ)} {target : ℚ} :
    ∀ fuel fuel' d a, fuel ≤ fuel' → slDown values target d fuel = some a →
      slDown values target d fuel' = some a := by
  intro fuel
  induction fuel with
  | zero => intro fuel' d a _ h; simp [slDown] at h
  | succ n ih =>
    intro fuel' d a hle h
    cases fuel' with
    | zero => omega
    | succ m =>
      simp only [slDown] at h ⊢
      split at h
      · rename_i hc
        rw [if_pos hc]
        exact ih m _ a (by omega) h
      · rename_i hc
        rw [if_neg hc]
        exact h

theorem slUp_fuel_mono {values : List (ℕ × ℚ)} {target : ℚ} :
    ∀ fuel fuel' d a, fuel ≤ fuel' → slUp values target d fuel = some a →
      slUp values target d fuel' = some a := by
  intro fuel
  induction fuel with
  | zero => intro fuel' d a _ h; simp [slUp] at h
  | succ n ih =>
    intro fuel' d a hle h
    cases fuel' with
    | zero => omega
    | succ m =>
      simp only [slUp] at h ⊢
      split at h
      · rename_i hc
        rw [if_pos hc]
        exact ih m _ a (by omega) h
      · rename_i hc
        rw [if_neg hc]
        exact h

theorem gzLoop_fuel_mono {votes : List (ℕ × ℚ)} {floors : ℕ → ℚ} :
    ∀ fuel fuel' d a, fuel ≤ fuel' → gzLoop votes floors d fuel = some a →
      gzLoop votes floors d fuel' = some a := by
  intro fuel
  induction fuel with
  | zero => intro fuel' d a _ h; simp [gzLoop] at h
  | succ n ih =>
    intro fuel' d a hle h
    cases fuel' with
    | zero => omega
    | succ m =>
      simp only [gzLoop] at h ⊢
      split at h
      · rename_i hc
        rw [if_pos hc]
        exact h
      · rename_i hc
        rw [if_neg hc]
        exact ih m _ a (by omega) h

theorem slfDown_fuel_mono {values : List (ℕ × ℚ)} {minima : ℕ → ℚ} {target : ℚ} :
    ∀ fuel fuel' d a, fuel ≤ fuel' → slfDown values minima target d fuel = some a →
      slfDown values minima target d fuel' = some a := by
  intro fuel
  induction fuel with
  | zero => intro fuel' d a _ h; simp [slfDown] at h
  | succ n ih =>
    intro fuel' d a hle h
    cases fuel' with
    | zero => omega
    | succ m =>
      simp only [slfDown] at h ⊢
      split at h
      · rename_i hc
        rw [if_pos hc]
        exact ih m _ a (by omega) h
      · rename_i hc
        rw [if_neg hc]
        exact h

theorem slfUp_fuel_mono {values : List (ℕ × ℚ)} {minima : ℕ → ℚ} {target : ℚ} :
    ∀ fuel fuel' d a, fuel ≤ fuel' → slfUp values minima target d fuel = some a →
      slfUp values minima target d fuel' = some a := by
  intro fuel
  induction fuel with
  | zero => intro fuel' d a _ h; simp [slfUp] at h
  | succ n ih =>
    intro fuel' d a hle h
    cases fuel' with
    | zero => omega
    | succ m =>
      simp only [slfUp] at h ⊢
      split at h
      · rename_i hc
        rw [if_pos hc]
        exact ih m _ a (by omega) h
      · rename_i hc
        rw [if_neg hc]
        exact h

theorem sainte_lague_fuel_mono {values : List (ℕ × ℚ)} {target : ℚ}
    {fuel fuel' : ℕ} {a : List (ℕ × ℤ)} (hle : fuel ≤ fuel')
    (h : sainte_lague values target fuel = some a) :
    sainte_lague values target fuel' = some a := by
  simp only [sainte_lague] at h ⊢
  split at h
  · rename_i hc
    rw [if_pos hc]
    exact h
  · rename_i hc
    rw [if_neg hc]
    split at h
    · rename_i hc2
      rw [if_pos hc2]
      exact slDown_fuel_mono fuel fuel' _ a hle h
    · rename_i hc2
      rw [if_neg hc2]
      exact slUp_fuel_mono fuel fuel' _ a hle h

theorem sainte_lague_final_fuel_mono {values : List (ℕ × ℚ)} {minima : ℕ → ℚ}
    {target : ℚ} {fuel fuel' : ℕ} {a : List (ℕ × ℚ)} (hle : fuel ≤ fuel')
    (h : sainte_lague_final values minima target fuel = some a) :
    sainte_lague_final values minima target fuel' = some a := by
  simp only [sainte_lague_final] at h ⊢
  split at h
  · rename_i hc
    rw [if_pos hc]
    exact h
  · rename_i hc
    rw [if_neg hc]
    split at h
    · rename_i hc2
      rw [if_pos hc2]
      exact slfDown_fuel_mono fuel fuel' _ a hle h
    · rename_i hc2
      rw [if_neg hc2]
      exact slfUp_fuel_mono fuel fuel' _ a hle h

theorem get_gesamtzahl_fuel_mono {mindest : Tabelle} {zweit : Wahltabelle}
    {qual : List ℕ} {fuel fuel' : ℕ} {a : List (ℕ × ℤ)} (hle : fuel ≤ fuel')
    (h : get_gesamtzahl_bundestagssitze_pro_partei mindest zweit qual fuel = some a) :
    get_gesamtzahl_bundestagssitze_pro_partei mindest zweit qual fuel' = some a := by
  unfold get_gesamtzahl_bundestagssitze_pro_partei at h ⊢
  simp only [] at h ⊢
  split at h
  · rename_i hc
    rw [if_pos hc]
    exact h
  · rename_i hc
    rw [if_neg hc]
    exact gzLoop_fuel_mono fuel fuel' _ a hle h

theorem listensitzeJeBundesland_fuel_mono {zweit : Wahltabelle} {qual : List ℕ}
    {fuel fuel' : ℕ} (hle : fuel ≤ fuel') :
    ∀ sitze cols, listensitzeJeBundesland zweit qual fuel sitze = some cols →
      listensitzeJeBundesland zweit qual fuel' sitze = some cols := by
  intro sitze
  induction sitze with
  | nil => intro cols h; exact h
  | cons bs rest ih =>
    intro cols h
    simp only [listensitzeJeBundesland] at h ⊢
    split at h
    · rename_i a r ha hr
      rw [sainte_lague_fuel_mono hle ha, ih r hr]
      exact h
    · exact absurd h (by simp)

theorem get_listensitze_fuel_mono {sitze : List (ℕ × ℤ)} {zweit : Wahltabelle}
    {qual : List ℕ} {fuel fuel' : ℕ} {t : Tabelle} (hle : fuel ≤ fuel')
    (h : get_listensitze_pro_partei_pro_bundesland sitze zweit qual fuel = some t) :
    get_listensitze_pro_partei_pro_bundesland sitze zweit qual fuel' = some t := by
  unfold get_listensitze_pro_partei_pro_bundesland at h ⊢
  split at h
  · exact absurd h (by simp)
  · rename_i cols hcols
    rw [listensitzeJeBundesland_fuel_mono hle _ cols hcols]
    exact h

theorem combineFinal_fuel_mono {zweit : Wahltabelle} {wk : Tabelle}
    {gesamt : List (ℕ × ℤ)} {fuel fuel' : ℕ} (hle : fuel ≤ fuel') :
    ∀ qual out, combineFinal zweit wk gesamt fuel qual = some out →
      combineFinal zweit wk gesamt fuel' qual = some out := by
  intro qual
  induction qual with
  | nil => intro out h; exact h
  | cons q qs ih =>
    intro out h
    simp only [combineFinal] at h ⊢
    split at h
    · rename_i v r hv hr
      rw [sainte_lague_final_fuel_mono hle hv, ih r hr]
      exact h
    · exact absurd h (by simp)

theorem run_fuel_mono {bev : List (ℕ × ℚ)} {erst zweit : Wahltabelle}
    {fuel fuel' : ℕ} {t : List (ℕ × List (ℕ × ℚ))} (hle : fuel ≤ fuel')
    (h : run_bundestagssitz_verteilung bev erst zweit fuel = some t) :
    run_bundestagssitz_verteilung bev erst zweit fuel' = some t := by
  unfold run_bundestagssitz_verteilung get_sitze_pro_bundesland at h ⊢
  simp only [] at h ⊢
  split at h
  · exact absurd h (by simp)
  · rename_i sitze hsitze
    rw [sainte_lague_fuel_mono hle hsitze]
    simp only [] at h ⊢
    split at h
    · exact absurd h (by simp)
    · rename_i listen hlisten
      rw [get_listensitze_fuel_mono hle hlisten]
      simp only [] at h ⊢
      split at h
      · exact absurd h (by simp)
      · rename_i gesamt hgesamt
        rw [get_gesamtzahl_fuel_mono hle hgesamt]
        simp only [] at h ⊢
        exact combineFinal_fuel_mono hle _ t h

/-- C9: the orchestrator is deterministic: any two converging runs on
identical population, first-vote and second-vote inputs return the same
final seat table, whatever fuel bounds the two runs use — the result is a
pure function of the inputs with no hidden state. -/
theorem run_bundestagssitz_verteilung_deterministic
    (bev : List (ℕ × ℚ)) (erst zweit : Wahltabelle) (fuel₁ fuel₂ : ℕ)
    (t₁ t₂ : List (ℕ × List (ℕ × ℚ)))
    (h₁ : run_bundestagssitz_verteilung bev erst zweit fuel₁ = some t₁)
    (h₂ : run_bundestagssitz_verteilung bev erst zweit fuel₂ = some t₂) :
    t₁ = t₂ := by
  rcases le_total fuel₁ fuel₂ with hle | hle
  · have hm := run_fuel_mono hle h₁
    rw [hm] at h₂
    exact Option.some.inj h₂
  · have hm := run_fuel_mono hle h₂
    rw [hm] at h₁
    exact (Option.some.inj h₁).symm

set_option maxRecDepth 8000 in
/-- C9 (witness): two runs of the orchestrator on identical concrete
inputs with different fuel bounds return the same table. -/
theorem run_bundestagssitz_verteilung_deterministic_witness :
    [((0:ℕ), [((0:ℕ), (299:ℚ)), (1, 299)])] = [(0, [(0, 299), (1, 299)])] :=
  run_bundestagssitz_verteilung_deterministic bevGleich erstEinePartei
    zweitEinePartei 1 2 _ _ (by with_unfolding_all decide)
    (by with_unfolding_all decide)
